import Mathlib

/-!
Verification of the monotonic ULID core of `polykit` (`polykit/core/ulid.py`).

The Python source is shallowly embedded as follows:

* Python `str` values are Lean `String`s (a ULID string is compared with the
  ordinary lexicographic `<` on strings, which in Lean is `List.lt` on the
  underlying character list, matching Python's code-point comparison).
* Python `bytes` values are `List Nat` whose elements are below 256; the
  bound is carried as a hypothesis where it matters.
* Python `int` timestamps are `Int`; the expressions `t >> k` and `x & 0xFF`
  on possibly-negative Python ints are floor shift and non-negative masking,
  which for positive powers of two coincide with Euclidean `/` and `%` on
  `Int` (that is, `Int.ediv` and `Int.emod`).
* A `raise ValueError` is modelled by returning `none` from an
  `Option`-valued function.
* `os.urandom(10)` is modelled by passing the fresh bytes as an explicit
  argument (`fresh`), since the caller-visible behaviour is parametric in
  the randomness drawn.
* The unbounded `while bits_left >= 5` loop inside `encode` is modelled by
  structural recursion on a fuel argument initialised to `bits_left`; each
  iteration removes 5 bits, so `bits_left` itself is enough fuel, and the
  fuel never runs out on the reachable arguments (proved below).
-/

set_option maxRecDepth 8000

namespace Polykit

/-- Decoded ULID components (the `DecodedULID` named tuple). -/
structure DecodedULID where
  timestamp_ms : Nat
  random_bytes : List Nat
deriving DecidableEq, Repr

namespace ULID

/-- `ULID.LENGTH`. -/
def LENGTH : Nat := 26

/-- `ULID.ALPHABET` (Crockford base 32). -/
def ALPHABET : String := "0123456789ABCDEFGHJKMNPQRSTVWXYZ"

/-- The assignments performed by `ULID._init_decode_table`, in program order:
for each alphabet character its uppercase and lowercase code point map to its
index, then the ambiguous characters `i I l L o O` are mapped to 1/1/1/1/0/0.
A Python dict keeps the last assignment for a key, so lookups below scan the
reversed list. -/
def DECODE_TABLE_ENTRIES : List (Nat × Nat) :=
  (ALPHABET.data.enum.map fun p => (p.2.toNat, p.1))
    ++ (ALPHABET.data.enum.map fun p => (p.2.toLower.toNat, p.1))
    ++ [('i'.toNat, 1), ('I'.toNat, 1), ('l'.toNat, 1), ('L'.toNat, 1),
        ('o'.toNat, 0), ('O'.toNat, 0)]

/-- `ULID._DECODE_TABLE.get(code)`: dictionary lookup, last assignment wins. -/
def DECODE_TABLE (code : Nat) : Option Nat :=
  (DECODE_TABLE_ENTRIES.reverse.find? fun p => p.1 == code).map Prod.snd

/-- One pass of the carry loop of `ULID._shift_left` over the byte array,
processed from the least significant (last) byte upwards; returns the final
carry together with the updated bytes. -/
def shiftLeftCarry (bits : Nat) : List Nat → Nat × List Nat
  | [] => (0, [])
  | b :: rest =>
    let prev := shiftLeftCarry bits rest
    let shifted := (b <<< bits) ||| prev.1
    (shifted >>> 8, (shifted &&& 0xFF) :: prev.2)

/-- `ULID._shift_left(bytes_data, bits)`: `none` models the `ValueError`
raised when `bits` is not strictly between 0 and 7. -/
def shift_left (bytes_data : List Nat) (bits : Nat) : Option (List Nat) :=
  if 0 < bits ∧ bits < 8 then some (shiftLeftCarry bits bytes_data).2 else none

/-- The character loop of `ULID.decode`: look each character up in the decode
table, shift the 17-byte accumulator left by 5 bits and or the value into the
last byte.  `none` models the early `return None` on an unknown character
(or a `ValueError` escaping from `_shift_left`, which cannot happen for the
constant shift 5). -/
def decodeLoop : List Char → List Nat → Option (List Nat)
  | [], acc => some acc
  | c :: cs, acc =>
    match DECODE_TABLE c.toNat with
    | none => none
    | some value =>
      match shift_left acc 5 with
      | none => none
      | some acc' => decodeLoop cs (acc'.dropLast ++ [acc'.getLastD 0 ||| value])

/-- `ULID.decode(ulid)`. -/
def decode (ulid : String) : Option DecodedULID :=
  if ulid.data.length ≠ LENGTH then none
  else
    match decodeLoop ulid.data (List.replicate 17 0) with
    | none => none
    | some acc =>
      if acc.headD 0 ≠ 0 then none
      else
        let bytes_data := (acc.drop 1).take 16
        let timestamp_ms := (bytes_data.take 6).foldl (fun t b => (t <<< 8) ||| b) 0
        let random_bytes := (bytes_data.drop 6).take 10
        some ⟨timestamp_ms, random_bytes⟩

/-- The inner `while bits_left >= 5` loop of `ULID.encode`: emit the top five
bits of the buffer as an alphabet character until fewer than five bits are
left.  `fuel` only bounds the iteration count; it is initialised to
`bits_left` by `encodeStep`, which is enough since every iteration consumes
five bits. -/
def drainBits : Nat → Nat → Nat → List Char → List Char × Nat × Nat
  | 0, buffer, bits_left, output => (output, buffer, bits_left)
  | fuel + 1, buffer, bits_left, output =>
    if 5 ≤ bits_left then
      let shift := bits_left - 5
      let index := (buffer >>> shift) &&& 0x1F
      let output' := output ++ [ALPHABET.data.getD index '0']
      let buffer' := if bits_left - 5 = 0 then 0 else buffer &&& ((1 <<< (bits_left - 5)) - 1)
      drainBits fuel buffer' (bits_left - 5) output'
    else (output, buffer, bits_left)

/-- One iteration of the `for byte in bytes_data` loop of `ULID.encode`:
append the byte to the bit buffer, then drain complete 5-bit groups.  The
state is `(output, buffer, bits_left)`. -/
def encodeStep (st : List Char × Nat × Nat) (byte : Nat) : List Char × Nat × Nat :=
  drainBits (st.2.2 + 8) ((st.2.1 <<< 8) ||| byte) (st.2.2 + 8) st.1

/-- `ULID.encode(timestamp_ms, random_bytes)`.  `none` models the
`ValueError` raised for a random component that is not 10 bytes, and the
defensive `ValueError` raised if the output is not 26 characters. -/
def encode (timestamp_ms : Int) (random_bytes : List Nat) : Option String :=
  if random_bytes.length ≠ 10 then none
  else
    let bytes_data : List Nat :=
      [((timestamp_ms / 2 ^ 40) % 256).toNat,
       ((timestamp_ms / 2 ^ 32) % 256).toNat,
       ((timestamp_ms / 2 ^ 24) % 256).toNat,
       ((timestamp_ms / 2 ^ 16) % 256).toNat,
       ((timestamp_ms / 2 ^ 8) % 256).toNat,
       (timestamp_ms % 256).toNat] ++ random_bytes
    let res := bytes_data.foldl encodeStep ([], 0, 2)
    if res.1.length ≠ LENGTH then none else some ⟨res.1⟩

end ULID

/-- The mutable state of a `ULIDGenerator`: `_last_timestamp_ms` and
`_last_random`. -/
structure GenState where
  last_timestamp_ms : Nat
  last_random : List Nat
deriving DecidableEq, Repr

/-- `ULIDGenerator.__init__`: zero timestamp and ten zero bytes. -/
def GenState.init : GenState := ⟨0, List.replicate 10 0⟩

namespace ULIDGenerator

/-- The byte loop of `ULIDGenerator._increment_random`, written on the
reversed (little-endian first) byte list: a 255 byte becomes 0 with the carry
moving on; any other byte is incremented and the loop returns.  `none` means
the carry ran off the end (all bytes were 255). -/
def incrementCarry : List Nat → Option (List Nat)
  | [] => none
  | b :: rest =>
    if b = 0xFF then (incrementCarry rest).map (fun r => 0 :: r)
    else some (((b + 1) &&& 0xFF) :: rest)

/-- `ULIDGenerator._increment_random`: increment the 10-byte big-endian
value; on overflow (all bytes 255) reseed with fresh randomness. -/
def increment_random (last_random fresh : List Nat) : List Nat :=
  match incrementCarry last_random.reverse with
  | some r => r.reverse
  | none => fresh

/-- The state transition of `ULIDGenerator.next` under the lock: a larger
timestamp takes the new time and fresh randomness, otherwise the random
component is incremented. -/
def nextState (s : GenState) (now_ms : Nat) (fresh : List Nat) : GenState :=
  if s.last_timestamp_ms < now_ms then ⟨now_ms, fresh⟩
  else ⟨s.last_timestamp_ms, increment_random s.last_random fresh⟩

/-- `ULIDGenerator.next`: update the state, then encode it. -/
def next (s : GenState) (now_ms : Nat) (fresh : List Nat) : GenState × Option String :=
  let s' := nextState s now_ms fresh
  (s', ULID.encode s'.last_timestamp_ms s'.last_random)

/-- `ULIDGenerator.seed(existing_ulid)`: decode, and replace the state only
when the decoded pair is strictly greater (timestamp first, then the random
bytes lexicographically, exactly as the Python comparison does). -/
def seed (s : GenState) (existing_ulid : String) : GenState :=
  match ULID.decode existing_ulid with
  | none => s
  | some decoded =>
    if s.last_timestamp_ms < decoded.timestamp_ms then
      ⟨decoded.timestamp_ms, decoded.random_bytes⟩
    else if decoded.timestamp_ms = s.last_timestamp_ms
        ∧ s.last_random < decoded.random_bytes then
      ⟨decoded.timestamp_ms, decoded.random_bytes⟩
    else s

end ULIDGenerator

/-- The module-level mutable cells of `polykit/core/ulid.py`:
`ULIDGenerator._shared` (the class-level singleton used by
`ULIDGenerator.get_shared`) and `_generator_instance` (the module-level
singleton used by `get_ulid_generator`). -/
structure ModuleState where
  shared : Option GenState
  generator_instance : Option GenState
deriving DecidableEq, Repr

/-- Big-endian value of a list of `w`-bit digits (specification helper). -/
def radixToNat (w : Nat) (l : List Nat) : Nat := l.foldl (fun a b => a * 2 ^ w + b) 0

/-- Big-endian value of a byte list. -/
def bytesToNat (l : List Nat) : Nat := radixToNat 8 l

/-- Little-endian value of a byte list (helper for the carry loop). -/
def valLE : List Nat → Nat
  | [] => 0
  | b :: rest => b + 256 * valLE rest

/-- The 128-bit value of a generator state. -/
def value128 (s : GenState) : Nat := s.last_timestamp_ms * 2 ^ 80 + bytesToNat s.last_random

/-- A well-formed generator state: 48-bit timestamp and ten bytes. -/
def validState (s : GenState) : Prop :=
  s.last_timestamp_ms < 2 ^ 48 ∧ s.last_random.length = 10 ∧ ∀ b ∈ s.last_random, b < 256

/-- A well-formed `next` input: 48-bit time override and ten fresh bytes. -/
def validInput (p : Nat × List Nat) : Prop :=
  p.1 < 2 ^ 48 ∧ p.2.length = 10 ∧ ∀ b ∈ p.2, b < 256

/-- `ULIDGenerator.nextState` uncurried over one `(now_ms, fresh)` input. -/
def stepP (s : GenState) (p : Nat × List Nat) : GenState :=
  ULIDGenerator.nextState s p.1 p.2

/-- Both options hold strings and the first is lexicographically smaller. -/
def someLt (a b : Option String) : Prop := ∃ x y, a = some x ∧ b = some y ∧ x < y

/-- The base-32 value read off a character list through the decode table,
`none` if some character is missing from the table. -/
def charsValueAux (a : Option Nat) (cs : List Char) : Option Nat :=
  cs.foldl (fun x c => x.bind fun n => (ULID.DECODE_TABLE c.toNat).map fun v => n * 32 + v) a

/-- The 130-bit value of a 26-character candidate ULID string, `none` if some
character is missing from the decode table. -/
def charsValue (cs : List Char) : Option Nat := charsValueAux (some 0) cs

/-- One transcription-leniency substitution on a character: identity,
lowercasing, an `i I l L` for `1`, or an `o O` for `0`. -/
def aliasOf (c c' : Char) : Prop :=
  c' = c ∨ c' = c.toLower
    ∨ (c = '1' ∧ c' ∈ ['i', 'I', 'l', 'L'])
    ∨ (c = '0' ∧ c' ∈ ['o', 'O'])

/-- The canonical alphabet character of a 5-bit digit. -/
def alphChar (d : Nat) : Char := ULID.ALPHABET.data.getD d '0'

/-- `ULIDGenerator.get_shared()`: lazily create the class-level singleton and
return (a reference to) it.  In this sequential model a reference to a
generator is identified with the cell it lives in, so the function returns
the state of the cell together with the updated module state. -/
def get_shared (m : ModuleState) : GenState × ModuleState :=
  match m.shared with
  | some g => (g, m)
  | none => (GenState.init, { m with shared := some GenState.init })

/-- `get_ulid_generator()`: lazily create the module-level singleton. -/
def get_ulid_generator (m : ModuleState) : GenState × ModuleState :=
  match m.generator_instance with
  | some g => (g, m)
  | none => (GenState.init, { m with generator_instance := some GenState.init })

/-- `generate_ulid(date)`: call `next` on `get_ulid_generator()`, writing the
mutated generator state back to the module-level cell it lives in. -/
def generate_ulid (m : ModuleState) (now_ms : Nat) (fresh : List Nat) :
    Option String × ModuleState :=
  let g := get_ulid_generator m
  let r := ULIDGenerator.next g.1 now_ms fresh
  (r.2, { g.2 with generator_instance := some r.1 })

/-- `ULIDGenerator.get_shared().next(date)`: the same call pattern through
the class-level singleton. -/
def shared_next (m : ModuleState) (now_ms : Nat) (fresh : List Nat) :
    Option String × ModuleState :=
  let g := get_shared m
  let r := ULIDGenerator.next g.1 now_ms fresh
  (r.2, { g.2 with shared := some r.1 })

/-! ### Arithmetic toolbox: disjoint `or`, masks, digit values -/

theorem lor_eq_add {x v n : Nat} (hx : x % 2 ^ n = 0) (hv : v < 2 ^ n) :
    x ||| v = x + v := by
  obtain ⟨k, hk⟩ := Nat.dvd_of_mod_eq_zero hx
  subst hk
  exact (Nat.mul_add_lt_is_or hv k).symm

theorem shiftLeft_lor_eq_add (b v m : Nat) (hv : v < 2 ^ m) :
    (b <<< m) ||| v = b * 2 ^ m + v := by
  rw [Nat.shiftLeft_eq, lor_eq_add (Nat.mul_mod_left b (2 ^ m)) hv]

theorem radixToNat_nil (w : Nat) : radixToNat w [] = 0 := rfl

theorem radix_foldl (w : Nat) (l : List Nat) (a : Nat) :
    l.foldl (fun x b => x * 2 ^ w + b) a = a * 2 ^ (w * l.length) + radixToNat w l := by
  induction l generalizing a with
  | nil => simp [radixToNat]
  | cons b l ih =>
    show List.foldl _ (a * 2 ^ w + b) l = a * 2 ^ (w * (l.length + 1)) + radixToNat w (b :: l)
    have hbl : radixToNat w (b :: l) = b * 2 ^ (w * l.length) + radixToNat w l := by
      show List.foldl _ (0 * 2 ^ w + b) l = _
      rw [Nat.zero_mul, Nat.zero_add, ih b]
    rw [ih (a * 2 ^ w + b), hbl,
      show w * (l.length + 1) = w * l.length + w by ring, pow_add]
    ring

theorem radixToNat_cons (w b : Nat) (l : List Nat) :
    radixToNat w (b :: l) = b * 2 ^ (w * l.length) + radixToNat w l := by
  show List.foldl _ (0 * 2 ^ w + b) l = _
  rw [Nat.zero_mul, Nat.zero_add, radix_foldl]

theorem radixToNat_append (w : Nat) (l₁ l₂ : List Nat) :
    radixToNat w (l₁ ++ l₂) = radixToNat w l₁ * 2 ^ (w * l₂.length) + radixToNat w l₂ := by
  unfold radixToNat
  rw [List.foldl_append]
  rw [radix_foldl w l₂ (List.foldl _ 0 l₁)]
  rfl

theorem radixToNat_lt (w : Nat) (l : List Nat) (h : ∀ b ∈ l, b < 2 ^ w) :
    radixToNat w l < 2 ^ (w * l.length) := by
  induction l with
  | nil => simp [radixToNat]
  | cons b l ih =>
    rw [radixToNat_cons, show w * (b :: l).length = w * l.length + w by
      simp [List.length_cons]; ring, pow_add]
    have hb : b < 2 ^ w := h b (List.mem_cons_self b l)
    have hl : radixToNat w l < 2 ^ (w * l.length) := ih fun x hx => h x (List.mem_cons_of_mem b hx)
    calc b * 2 ^ (w * l.length) + radixToNat w l
        < b * 2 ^ (w * l.length) + 2 ^ (w * l.length) := by omega
      _ = (b + 1) * 2 ^ (w * l.length) := by ring
      _ ≤ 2 ^ w * 2 ^ (w * l.length) := Nat.mul_le_mul_right _ (by omega)
      _ = 2 ^ (w * l.length) * 2 ^ w := by ring

/-- A strictly smaller leading digit forces a strictly smaller value, no
matter the tails, as long as the first tail value is in range. -/
theorem digit_block_lt {a b v₁ : Nat} (v₂ M : Nat) (hv : v₁ < M) (hab : a < b) :
    a * M + v₁ < b * M + v₂ := by
  have h1 : (a + 1) * M ≤ b * M := Nat.mul_le_mul_right M (by omega)
  have h2 : a * M + M = (a + 1) * M := by ring
  omega

theorem radixToNat_inj (w : Nat) (l₁ l₂ : List Nat) (hlen : l₁.length = l₂.length)
    (h₁ : ∀ b ∈ l₁, b < 2 ^ w) (h₂ : ∀ b ∈ l₂, b < 2 ^ w)
    (hv : radixToNat w l₁ = radixToNat w l₂) : l₁ = l₂ := by
  induction l₁ generalizing l₂ with
  | nil => cases l₂ with
    | nil => rfl
    | cons b l => simp at hlen
  | cons a l₁ ih =>
    cases l₂ with
    | nil => simp at hlen
    | cons b l₂ =>
      simp only [List.length_cons, Nat.add_right_cancel_iff] at hlen
      rw [radixToNat_cons, radixToNat_cons, hlen] at hv
      have hva : radixToNat w l₁ < 2 ^ (w * l₂.length) := hlen ▸
        radixToNat_lt w l₁ fun x hx => h₁ x (List.mem_cons_of_mem a hx)
      have hvb : radixToNat w l₂ < 2 ^ (w * l₂.length) := radixToNat_lt w l₂
        fun x hx => h₂ x (List.mem_cons_of_mem b hx)
      have hab : a = b := by
        rcases Nat.lt_trichotomy a b with h | h | h
        · exact absurd hv (Nat.ne_of_lt (digit_block_lt _ _ hva h))
        · exact h
        · exact absurd hv.symm (Nat.ne_of_lt (digit_block_lt _ _ hvb h))
      subst hab
      have : radixToNat w l₁ = radixToNat w l₂ := by omega
      rw [ih l₂ hlen (fun x hx => h₁ x (List.mem_cons_of_mem a hx))
        (fun x hx => h₂ x (List.mem_cons_of_mem a hx)) this]

/-- Splitting a digit list at position `k` splits its value by division. -/
theorem radixToNat_take_drop (w : Nat) (l : List Nat) (k : Nat) (hk : k ≤ l.length)
    (h : ∀ b ∈ l, b < 2 ^ w) :
    radixToNat w (l.take k) = radixToNat w l / 2 ^ (w * (l.length - k))
      ∧ radixToNat w (l.drop k) = radixToNat w l % 2 ^ (w * (l.length - k)) := by
  have hsplit := List.take_append_drop k l
  have hlen : (l.drop k).length = l.length - k := List.length_drop k l
  have hval : radixToNat w l
      = radixToNat w (l.take k) * 2 ^ (w * (l.length - k)) + radixToNat w (l.drop k) := by
    conv_lhs => rw [← hsplit]
    rw [radixToNat_append, hlen]
  have hdrop : radixToNat w (l.drop k) < 2 ^ (w * (l.length - k)) := by
    rw [← hlen]
    exact radixToNat_lt w _ fun x hx => h x (List.mem_of_mem_drop hx)
  constructor
  · rw [hval, Nat.add_comm, Nat.mul_comm (radixToNat w (l.take k)),
      Nat.add_mul_div_left _ _ (Nat.two_pow_pos _), Nat.div_eq_of_lt hdrop, Nat.zero_add]
  · rw [hval, Nat.mul_comm (radixToNat w (l.take k)), Nat.mul_add_mod,
      Nat.mod_eq_of_lt hdrop]

theorem valLE_append_singleton (l : List Nat) (b : Nat) :
    valLE (l ++ [b]) = valLE l + b * 256 ^ l.length := by
  induction l with
  | nil => simp [valLE]
  | cons a l ih =>
    show a + 256 * valLE (l ++ [b]) = a + 256 * valLE l + b * 256 ^ (l.length + 1)
    rw [ih, pow_succ]
    ring

theorem bytesToNat_eq_valLE_reverse (l : List Nat) : bytesToNat l = valLE l.reverse := by
  induction l with
  | nil => rfl
  | cons b l ih =>
    show radixToNat 8 (b :: l) = valLE ((b :: l).reverse)
    rw [radixToNat_cons, List.reverse_cons, valLE_append_singleton, List.length_reverse,
      ← ih]
    have h256 : (256 : Nat) ^ l.length = 2 ^ (8 * l.length) := by
      rw [show (256 : Nat) = 2 ^ 8 by norm_num, ← pow_mul]
    rw [h256]
    show b * 2 ^ (8 * l.length) + bytesToNat l = bytesToNat l + b * 2 ^ (8 * l.length)
    ring

/-! ### Lexicographic comparison of digit lists and of their encodings -/

/-- Lexicographic comparison of equal-length digit lists agrees with
comparison of their base-`2 ^ w` values. -/
theorem radixToNat_lt_iff (w : Nat) (l₁ l₂ : List Nat) (hlen : l₁.length = l₂.length)
    (h₁ : ∀ b ∈ l₁, b < 2 ^ w) (h₂ : ∀ b ∈ l₂, b < 2 ^ w) :
    radixToNat w l₁ < radixToNat w l₂ ↔ l₁ < l₂ := by
  induction l₁ generalizing l₂ with
  | nil =>
    cases l₂ with
    | nil => exact iff_of_false (lt_irrefl 0) (List.Lex.not_nil_right _ _)
    | cons b l => simp at hlen
  | cons a l₁ ih =>
    cases l₂ with
    | nil => simp at hlen
    | cons b l₂ =>
      simp only [List.length_cons, Nat.add_right_cancel_iff] at hlen
      rw [radixToNat_cons, radixToNat_cons, hlen]
      have hva : radixToNat w l₁ < 2 ^ (w * l₂.length) := hlen ▸
        radixToNat_lt w l₁ fun x hx => h₁ x (List.mem_cons_of_mem a hx)
      have hvb : radixToNat w l₂ < 2 ^ (w * l₂.length) := radixToNat_lt w l₂
        fun x hx => h₂ x (List.mem_cons_of_mem b hx)
      rcases Nat.lt_trichotomy a b with h | h | h
      · exact iff_of_true (digit_block_lt _ _ hva h) (List.Lex.rel h)
      · subst h
        rw [Nat.add_lt_add_iff_left]
        have hih := ih l₂ hlen (fun x hx => h₁ x (List.mem_cons_of_mem a hx))
          (fun x hx => h₂ x (List.mem_cons_of_mem a hx))
        exact ⟨fun hl => List.Lex.cons (hih.mp hl),
          fun hl => hih.mpr (List.Lex.cons_iff.mp hl)⟩
      · exact iff_of_false (Nat.lt_asymm (digit_block_lt _ _ hvb h))
          (lt_asymm (List.Lex.rel h))

theorem alphChar_lt_iff :
    ∀ d₁ < 32, ∀ d₂ < 32, (alphChar d₁ < alphChar d₂ ↔ d₁ < d₂) := by decide

theorem alphChar_mem : ∀ d < 32, alphChar d ∈ ULID.ALPHABET.data := by decide

theorem decode_table_alphChar :
    ∀ d < 32, ULID.DECODE_TABLE (alphChar d).toNat = some d := by decide

/-- Lexicographic comparison of equal-length encoded digit lists agrees with
lexicographic comparison of the digits. -/
theorem mapAlph_lt_iff : ∀ ds₁ ds₂ : List Nat, ds₁.length = ds₂.length →
    (∀ d ∈ ds₁, d < 32) → (∀ d ∈ ds₂, d < 32) →
    (List.map alphChar ds₁ < List.map alphChar ds₂ ↔ ds₁ < ds₂) := by
  intro ds₁
  induction ds₁ with
  | nil =>
    intro ds₂ hlen _ _
    cases ds₂ with
    | nil => exact iff_of_false (List.Lex.not_nil_right _ _) (List.Lex.not_nil_right _ _)
    | cons b l => simp at hlen
  | cons a l₁ ih =>
    intro ds₂ hlen h₁ h₂
    cases ds₂ with
    | nil => simp at hlen
    | cons b l₂ =>
      simp only [List.length_cons, Nat.add_right_cancel_iff] at hlen
      simp only [List.map_cons]
      have ha : a < 32 := h₁ a (List.mem_cons_self a l₁)
      have hb : b < 32 := h₂ b (List.mem_cons_self b l₂)
      rcases Nat.lt_trichotomy a b with h | h | h
      · exact iff_of_true (List.Lex.rel ((alphChar_lt_iff a ha b hb).mpr h))
          (List.Lex.rel h)
      · subst h
        have hih := ih l₂ hlen (fun x hx => h₁ x (List.mem_cons_of_mem a hx))
          (fun x hx => h₂ x (List.mem_cons_of_mem a hx))
        exact ⟨fun hl => List.Lex.cons (hih.mp (List.Lex.cons_iff.mp hl)),
          fun hl => List.Lex.cons (hih.mpr (List.Lex.cons_iff.mp hl))⟩
      · have hc : alphChar b < alphChar a := (alphChar_lt_iff b hb a ha).mpr h
        exact iff_of_false (lt_asymm (List.Lex.rel hc)) (lt_asymm (List.Lex.rel h))

/-! ### Characterisation of `ULID.encode` -/

theorem radixToNat_singleton (w b : Nat) : radixToNat w [b] = b := by
  rw [radixToNat_cons]
  simp [radixToNat_nil]

theorem drainBits_spec : ∀ (fuel : Nat), ∀ (bits buffer : Nat) (ds : List Nat),
    bits ≤ fuel → buffer < 2 ^ bits → (∀ d ∈ ds, d < 32) →
    ∃ ds', ULID.drainBits fuel buffer bits (List.map alphChar ds)
        = (List.map alphChar ds', buffer % 2 ^ (bits % 5), bits % 5)
      ∧ (∀ d ∈ ds', d < 32)
      ∧ 5 * ds'.length + bits % 5 = 5 * ds.length + bits
      ∧ radixToNat 5 ds' * 2 ^ (bits % 5) + buffer % 2 ^ (bits % 5)
          = radixToNat 5 ds * 2 ^ bits + buffer := by
  intro fuel
  induction fuel with
  | zero =>
    intro bits buffer ds hfuel hbuf hds
    have hb0 : bits = 0 := Nat.le_zero.mp hfuel
    subst hb0
    have hbuf0 : buffer = 0 := by simpa using hbuf
    subst hbuf0
    exact ⟨ds, by simp [ULID.drainBits], hds, by simp, by simp⟩
  | succ fuel ih =>
    intro bits buffer ds hfuel hbuf hds
    by_cases h5 : 5 ≤ bits
    · have hM : (0 : Nat) < 2 ^ (bits - 5) := Nat.two_pow_pos _
      have hidx : buffer / 2 ^ (bits - 5) < 32 := by
        rw [Nat.div_lt_iff_lt_mul hM, show (32 : Nat) = 2 ^ 5 by norm_num, ← pow_add,
          show 5 + (bits - 5) = bits by omega]
        exact hbuf
      have hdiv : (buffer >>> (bits - 5)) &&& 0x1F = buffer / 2 ^ (bits - 5) := by
        rw [Nat.shiftRight_eq_div_pow,
          show (0x1F : Nat) = 2 ^ 5 - 1 by norm_num, Nat.and_pow_two_sub_one_eq_mod]
        exact Nat.mod_eq_of_lt (by rw [show (2 : Nat) ^ 5 = 32 by norm_num]; exact hidx)
      have hmask : (if bits - 5 = 0 then 0
          else buffer &&& ((1 <<< (bits - 5)) - 1)) = buffer % 2 ^ (bits - 5) := by
        by_cases hz : bits - 5 = 0
        · simp [hz, Nat.mod_one]
        · rw [if_neg hz, Nat.one_shiftLeft, Nat.and_pow_two_sub_one_eq_mod]
      have happ : List.map alphChar ds ++ [ULID.ALPHABET.data.getD (buffer / 2 ^ (bits - 5)) '0']
          = List.map alphChar (ds ++ [buffer / 2 ^ (bits - 5)]) := by
        rw [List.map_append]
        rfl
      have hmem : ∀ d ∈ ds ++ [buffer / 2 ^ (bits - 5)], d < 32 := by
        intro d hd
        rcases List.mem_append.mp hd with h | h
        · exact hds d h
        · rcases List.mem_singleton.mp h with rfl
          exact hidx
      obtain ⟨ds', heq, hds', hlen', hval'⟩ := ih (bits - 5) (buffer % 2 ^ (bits - 5))
        (ds ++ [buffer / 2 ^ (bits - 5)]) (by omega) (Nat.mod_lt _ hM) hmem
      have hmod5 : (bits - 5) % 5 = bits % 5 := by omega
      have hmodmod : buffer % 2 ^ (bits - 5) % 2 ^ (bits % 5) = buffer % 2 ^ (bits % 5) :=
        Nat.mod_mod_of_dvd buffer (Nat.pow_dvd_pow 2 (by omega))
      refine ⟨ds', ?_, hds', ?_, ?_⟩
      · show ULID.drainBits (fuel + 1) buffer bits (List.map alphChar ds) = _
        rw [ULID.drainBits]
        rw [if_pos h5]
        simp only [hdiv, hmask, happ]
        rw [heq, hmod5, hmodmod]
      · rw [List.length_append] at hlen'
        simp only [List.length_cons, List.length_nil] at hlen'
        omega
      · rw [hmod5, hmodmod] at hval'
        rw [hval']
        rw [radixToNat_append, radixToNat_singleton]
        simp only [List.length_cons, List.length_nil, Nat.mul_one]
        have hsplit : 2 ^ bits = 2 ^ 5 * 2 ^ (bits - 5) := by
          rw [← pow_add]
          congr 1
          omega
        have hdm := Nat.div_add_mod buffer (2 ^ (bits - 5))
        calc (radixToNat 5 ds * 2 ^ (5 * 1) + buffer / 2 ^ (bits - 5)) * 2 ^ (bits - 5)
              + buffer % 2 ^ (bits - 5)
            = radixToNat 5 ds * (2 ^ 5 * 2 ^ (bits - 5))
              + (2 ^ (bits - 5) * (buffer / 2 ^ (bits - 5)) + buffer % 2 ^ (bits - 5)) := by
              ring_nf
          _ = radixToNat 5 ds * 2 ^ bits + buffer := by rw [hdm, ← hsplit]
    · have e1 : bits % 5 = bits := Nat.mod_eq_of_lt (by omega)
      have e2 : buffer % 2 ^ bits = buffer := Nat.mod_eq_of_lt hbuf
      refine ⟨ds, ?_, hds, ?_, ?_⟩
      · show ULID.drainBits (fuel + 1) buffer bits (List.map alphChar ds) = _
        rw [ULID.drainBits, if_neg h5, e1, e2]
      · rw [e1]
      · rw [e1, e2]

theorem encodeFold_spec : ∀ (bytes : List Nat), (∀ b ∈ bytes, b < 256) →
    ∀ (ds : List Nat) (buffer bits : Nat), bits < 5 → buffer < 2 ^ bits → (∀ d ∈ ds, d < 32) →
    ∃ ds' buf', bytes.foldl ULID.encodeStep (List.map alphChar ds, buffer, bits)
        = (List.map alphChar ds', buf', (bits + 8 * bytes.length) % 5)
      ∧ buf' < 2 ^ ((bits + 8 * bytes.length) % 5)
      ∧ (∀ d ∈ ds', d < 32)
      ∧ 5 * ds'.length + (bits + 8 * bytes.length) % 5 = 5 * ds.length + bits + 8 * bytes.length
      ∧ radixToNat 5 ds' * 2 ^ ((bits + 8 * bytes.length) % 5) + buf'
          = (radixToNat 5 ds * 2 ^ bits + buffer) * 2 ^ (8 * bytes.length) + bytesToNat bytes := by
  intro bytes
  induction bytes with
  | nil =>
    intro hb ds buffer bits hbits hbuf hds
    have e1 : (bits + 8 * 0) % 5 = bits := by omega
    refine ⟨ds, buffer, ?_, ?_, hds, ?_, ?_⟩
    · simp only [List.foldl_nil, List.length_nil]
      rw [e1]
    · simp only [List.length_nil]
      rw [e1]
      exact hbuf
    · simp only [List.length_nil]
      omega
    · simp only [List.length_nil, Nat.mul_zero, pow_zero, Nat.mul_one]
      rw [e1, show bytesToNat [] = 0 from rfl]
      omega
  | cons b rest ih =>
    intro hb ds buffer bits hbits hbuf hds
    have hb1 : b < 256 := hb b (List.mem_cons_self b rest)
    have e256 : (2 : Nat) ^ 8 = 256 := by norm_num
    have hor : (buffer <<< 8) ||| b = buffer * 2 ^ 8 + b :=
      shiftLeft_lor_eq_add buffer b 8 (by rw [e256]; exact hb1)
    have hbuf0 : buffer * 2 ^ 8 + b < 2 ^ (bits + 8) := by
      have h1 : (buffer + 1) * 2 ^ 8 ≤ 2 ^ bits * 2 ^ 8 :=
        Nat.mul_le_mul_right _ (by omega)
      rw [pow_add]
      have h2 : buffer * 2 ^ 8 + b < (buffer + 1) * 2 ^ 8 := by
        rw [e256] at *
        omega
      omega
    have hstep : ULID.encodeStep (List.map alphChar ds, buffer, bits) b
        = ULID.drainBits (bits + 8) (buffer * 2 ^ 8 + b) (bits + 8) (List.map alphChar ds) := by
      show ULID.drainBits (bits + 8) ((buffer <<< 8) ||| b) (bits + 8) (List.map alphChar ds) = _
      rw [hor]
    obtain ⟨ds₁, heq₁, hds₁, hlen₁, hval₁⟩ :=
      drainBits_spec (bits + 8) (bits + 8) (buffer * 2 ^ 8 + b) ds le_rfl hbuf0 hds
    obtain ⟨ds', buf', heq₂, hbuf₂, hds₂, hlen₂, hval₂⟩ :=
      ih (fun x hx => hb x (List.mem_cons_of_mem b hx)) ds₁
        ((buffer * 2 ^ 8 + b) % 2 ^ ((bits + 8) % 5)) ((bits + 8) % 5)
        (Nat.mod_lt _ (by norm_num)) (Nat.mod_lt _ (Nat.two_pow_pos _))
        hds₁
    have emod : ((bits + 8) % 5 + 8 * rest.length) % 5 = (bits + 8 * (b :: rest).length) % 5 := by
      simp only [List.length_cons]
      omega
    refine ⟨ds', buf', ?_, ?_, hds₂, ?_, ?_⟩
    · rw [List.foldl_cons, hstep, heq₁, heq₂, emod]
    · rw [← emod]
      exact hbuf₂
    · simp only [List.length_cons] at *
      omega
    · rw [← emod, hval₂, hval₁]
      rw [show bytesToNat (b :: rest) = b * 2 ^ (8 * rest.length) + bytesToNat rest
        from radixToNat_cons 8 b rest]
      simp only [List.length_cons]
      have hp1 : (2 : Nat) ^ (bits + 8) = 2 ^ bits * 2 ^ 8 := pow_add 2 bits 8
      have hp2 : (2 : Nat) ^ (8 * (rest.length + 1)) = 2 ^ 8 * 2 ^ (8 * rest.length) := by
        rw [← pow_add]
        congr 1
        ring
      rw [hp1, hp2]
      ring

/-- The six timestamp bytes built by `encode` are the base-256 digits of the
timestamp reduced modulo `2 ^ 48`. -/
theorem ts_byte_eq (t : Int) (s : Nat) (hs : s + 8 ≤ 48) :
    ((t / 2 ^ s) % 256).toNat = (t % 2 ^ 48).toNat / 2 ^ s % 256 := by
  have hTnn : (0 : Int) ≤ t % 2 ^ 48 := Int.emod_nonneg t (by norm_num)
  have key : t / 2 ^ s % 256 = t % 2 ^ 48 / 2 ^ s % 256 := by
    conv_lhs => rw [← Int.ediv_add_emod t (2 ^ 48)]
    have hpow : (2 : Int) ^ 48 = 2 ^ (48 - s) * 2 ^ s := by
      rw [← pow_add]
      congr 1
      omega
    rw [hpow]
    have hrw : 2 ^ (48 - s) * 2 ^ s * (t / (2 ^ (48 - s) * 2 ^ s)) + t % (2 ^ (48 - s) * 2 ^ s)
        = t % (2 ^ (48 - s) * 2 ^ s) + (2 ^ (48 - s) * (t / (2 ^ (48 - s) * 2 ^ s))) * 2 ^ s := by
      ring
    rw [hrw, Int.add_mul_ediv_right _ _ (by positivity)]
    have hpow8 : (2 : Int) ^ (48 - s) = 2 ^ (40 - s) * 256 := by
      rw [show (256 : Int) = 2 ^ 8 by norm_num, ← pow_add]
      congr 1
      omega
    rw [hpow8]
    have hrw2 : t % (2 ^ (40 - s) * 256 * 2 ^ s) / 2 ^ s
          + 2 ^ (40 - s) * 256 * (t / (2 ^ (40 - s) * 256 * 2 ^ s))
        = t % (2 ^ (40 - s) * 256 * 2 ^ s) / 2 ^ s
          + 2 ^ (40 - s) * (t / (2 ^ (40 - s) * 256 * 2 ^ s)) * 256 := by
      ring
    rw [hrw2, Int.add_mul_emod_self]
  obtain ⟨Tn, hTn⟩ : ∃ n : Nat, t % 2 ^ 48 = (n : Int) :=
    ⟨(t % 2 ^ 48).toNat, (Int.toNat_of_nonneg hTnn).symm⟩
  rw [key, hTn]
  norm_cast

theorem ts_last_byte_eq (t : Int) : (t % 256).toNat = (t % 2 ^ 48).toNat % 256 := by
  have h := ts_byte_eq t 0 (by norm_num)
  simpa using h

theorem ts_bytes_value (t : Int) :
    bytesToNat [((t / 2 ^ 40) % 256).toNat, ((t / 2 ^ 32) % 256).toNat,
      ((t / 2 ^ 24) % 256).toNat, ((t / 2 ^ 16) % 256).toNat,
      ((t / 2 ^ 8) % 256).toNat, (t % 256).toNat] = (t % 2 ^ 48).toNat := by
  rw [ts_byte_eq t 40 (by norm_num), ts_byte_eq t 32 (by norm_num),
    ts_byte_eq t 24 (by norm_num), ts_byte_eq t 16 (by norm_num),
    ts_byte_eq t 8 (by norm_num), ts_last_byte_eq t]
  have hTlt : (t % 2 ^ 48).toNat < 2 ^ 48 := by
    have h1 := Int.emod_nonneg t (show (2 : Int) ^ 48 ≠ 0 by norm_num)
    have h2 := Int.emod_lt_of_pos t (show (0 : Int) < 2 ^ 48 by norm_num)
    omega
  unfold bytesToNat
  rw [radixToNat_cons, radixToNat_cons, radixToNat_cons, radixToNat_cons, radixToNat_cons,
    radixToNat_cons, radixToNat_nil]
  simp only [List.length_cons, List.length_nil]
  norm_num
  omega

/-- `encode` on a 10-byte random component succeeds and produces the
base-32 digits of the 128-bit value `(timestamp mod 2^48) * 2^80 + random`. -/
theorem encode_chars (t : Int) (r : List Nat) (hr : r.length = 10)
    (h256 : ∀ b ∈ r, b < 256) :
    ∃ ds, ULID.encode t r = some ⟨List.map alphChar ds⟩ ∧ ds.length = 26
      ∧ (∀ d ∈ ds, d < 32)
      ∧ radixToNat 5 ds = (t % 2 ^ 48).toNat * 2 ^ 80 + bytesToNat r := by
  have hbyte : ∀ x : Int, (x % 256).toNat < 256 := by
    intro x
    have h1 := Int.emod_nonneg x (show (256 : Int) ≠ 0 by norm_num)
    have h2 := Int.emod_lt_of_pos x (show (0 : Int) < 256 by norm_num)
    omega
  have hall : ∀ b ∈ ([((t / 2 ^ 40) % 256).toNat, ((t / 2 ^ 32) % 256).toNat,
      ((t / 2 ^ 24) % 256).toNat, ((t / 2 ^ 16) % 256).toNat,
      ((t / 2 ^ 8) % 256).toNat, (t % 256).toNat] ++ r), b < 256 := by
    intro b hb
    rcases List.mem_append.mp hb with h | h
    · simp only [List.mem_cons, List.not_mem_nil, or_false] at h
      rcases h with rfl | rfl | rfl | rfl | rfl | rfl <;> exact hbyte _
    · exact h256 b h
  obtain ⟨ds, buf, heq, hbuf, hds, hlen, hval⟩ :=
    encodeFold_spec _ hall [] 0 2 (by norm_num) (by norm_num) (by simp)
  rw [List.map_nil] at heq
  have hlen16 : ([((t / 2 ^ 40) % 256).toNat, ((t / 2 ^ 32) % 256).toNat,
      ((t / 2 ^ 24) % 256).toNat, ((t / 2 ^ 16) % 256).toNat,
      ((t / 2 ^ 8) % 256).toNat, (t % 256).toNat] ++ r).length = 16 := by
    simp [hr]
  rw [hlen16] at heq hbuf hlen hval
  have e0 : (2 + 8 * 16) % 5 = 0 := by norm_num
  rw [e0, pow_zero] at hbuf
  rw [e0] at heq hlen
  rw [e0, pow_zero] at hval
  have hbuf0 : buf = 0 := by omega
  subst hbuf0
  simp only [List.length_nil] at hlen
  have hds26 : ds.length = 26 := by omega
  have hvds : radixToNat 5 ds = (t % 2 ^ 48).toNat * 2 ^ 80 + bytesToNat r := by
    rw [show radixToNat 5 [] = 0 from rfl] at hval
    simp only [Nat.mul_one, Nat.add_zero, Nat.zero_mul, Nat.zero_add] at hval
    rw [show bytesToNat = radixToNat 8 from rfl] at hval
    rw [radixToNat_append] at hval
    rw [hr, show (8 * 10 : Nat) = 80 from rfl] at hval
    have hts := ts_bytes_value t
    rw [show bytesToNat = radixToNat 8 from rfl] at hts
    rw [hts] at hval
    exact hval
  refine ⟨ds, ?_, hds26, hds, hvds⟩
  show ULID.encode t r = some ⟨List.map alphChar ds⟩
  unfold ULID.encode
  rw [if_neg (by simp [hr])]
  simp only []
  rw [heq]
  have houtlen : (List.map alphChar ds).length = 26 := by
    rw [List.length_map, hds26]
  rw [if_neg (by simp [houtlen, ULID.LENGTH])]

/-! ### Characterisation of `ULID.decode` -/

theorem decode_table_bound : ∀ code v, ULID.DECODE_TABLE code = some v → v < 32 := by
  have hall : ∀ p ∈ ULID.DECODE_TABLE_ENTRIES.reverse, p.2 < 32 := by decide
  intro code v h
  unfold ULID.DECODE_TABLE at h
  cases hf : (ULID.DECODE_TABLE_ENTRIES.reverse.find? fun p => p.1 == code) with
  | none => rw [hf] at h; simp at h
  | some p =>
    rw [hf] at h
    simp at h
    rw [← h]
    exact hall p (List.mem_of_find?_eq_some hf)

theorem shiftLeftCarry_spec (bits : Nat) :
    ∀ l : List Nat, (∀ b ∈ l, b < 256) →
    (ULID.shiftLeftCarry bits l).1 = bytesToNat l * 2 ^ bits / 2 ^ (8 * l.length)
    ∧ (ULID.shiftLeftCarry bits l).2.length = l.length
    ∧ (∀ b ∈ (ULID.shiftLeftCarry bits l).2, b < 256)
    ∧ bytesToNat (ULID.shiftLeftCarry bits l).2 = bytesToNat l * 2 ^ bits % 2 ^ (8 * l.length) := by
  intro l
  induction l with
  | nil =>
    intro hb
    refine ⟨?_, rfl, ?_, ?_⟩
    · show (0 : Nat) = bytesToNat [] * 2 ^ bits / 2 ^ (8 * ([] : List Nat).length)
      norm_num [show bytesToNat [] = 0 from rfl]
    · intro x hx
      cases hx
    · show bytesToNat [] = bytesToNat [] * 2 ^ bits % 2 ^ (8 * ([] : List Nat).length)
      norm_num [show bytesToNat [] = 0 from rfl]
  | cons b rest ih =>
    intro hb
    obtain ⟨hc, hlen, hbnd, hval⟩ := ih (fun x hx => hb x (List.mem_cons_of_mem b hx))
    have hbb : b < 256 := hb b (List.mem_cons_self b rest)
    have hRlt : bytesToNat rest < 2 ^ (8 * rest.length) :=
      radixToNat_lt 8 rest (by
        intro x hx
        have := hb x (List.mem_cons_of_mem b hx)
        omega)
    set M := 2 ^ (8 * rest.length) with hM
    set R := bytesToNat rest with hR
    have hMpos : 0 < M := Nat.two_pow_pos _
    have hcbound : R * 2 ^ bits / M < 2 ^ bits := by
      rw [Nat.div_lt_iff_lt_mul hMpos, Nat.mul_comm (2 ^ bits)]
      exact (Nat.mul_lt_mul_right (Nat.two_pow_pos bits)).mpr hRlt
    set c := R * 2 ^ bits / M with hcdef
    set shifted := b * 2 ^ bits + c with hsdef
    have hshifted : (b <<< bits) ||| (ULID.shiftLeftCarry bits rest).1 = shifted := by
      rw [hc]
      exact shiftLeft_lor_eq_add b _ bits hcbound
    have hcons : ULID.shiftLeftCarry bits (b :: rest)
        = (shifted >>> 8, (shifted &&& 0xFF) :: (ULID.shiftLeftCarry bits rest).2) := by
      show ((b <<< bits ||| (ULID.shiftLeftCarry bits rest).1) >>> 8,
        ((b <<< bits ||| (ULID.shiftLeftCarry bits rest).1) &&& 0xFF)
          :: (ULID.shiftLeftCarry bits rest).2) = _
      rw [hshifted]
    have hmask : shifted &&& 0xFF = shifted % 256 := by
      rw [show (0xFF : Nat) = 2 ^ 8 - 1 by norm_num, Nat.and_pow_two_sub_one_eq_mod]
    have hsplitM : (2 : Nat) ^ (8 * (b :: rest).length) = M * 2 ^ 8 := by
      rw [hM, ← pow_add]
      have hexp : 8 * (b :: rest).length = 8 * rest.length + 8 := by
        simp only [List.length_cons]
        ring
      rw [hexp]
    have htotal : bytesToNat (b :: rest) * 2 ^ bits = M * shifted + R * 2 ^ bits % M := by
      rw [show bytesToNat (b :: rest) = b * M + R from radixToNat_cons 8 b rest]
      have hdm := Nat.div_add_mod (R * 2 ^ bits) M
      calc (b * M + R) * 2 ^ bits = b * 2 ^ bits * M + (M * c + R * 2 ^ bits % M) := by
            rw [hdm]
            ring
        _ = M * shifted + R * 2 ^ bits % M := by
            rw [hsdef]
            ring
    have hcarry : shifted >>> 8 = bytesToNat (b :: rest) * 2 ^ bits / 2 ^ (8 * (b :: rest).length) := by
      rw [Nat.shiftRight_eq_div_pow, htotal, hsplitM, ← Nat.div_div_eq_div_mul,
        Nat.mul_add_div hMpos, Nat.div_eq_of_lt (Nat.mod_lt _ hMpos), Nat.add_zero]
    have hnewval : bytesToNat ((shifted &&& 0xFF) :: (ULID.shiftLeftCarry bits rest).2)
        = bytesToNat (b :: rest) * 2 ^ bits % 2 ^ (8 * (b :: rest).length) := by
      rw [show bytesToNat ((shifted &&& 0xFF) :: (ULID.shiftLeftCarry bits rest).2)
          = (shifted &&& 0xFF) * 2 ^ (8 * (ULID.shiftLeftCarry bits rest).2.length)
            + bytesToNat (ULID.shiftLeftCarry bits rest).2
          from radixToNat_cons 8 _ _]
      rw [hlen, hval, htotal, hsplitM, hmask, ← hM]
      have hdm8 := Nat.div_add_mod shifted 256
      have hrem : R * 2 ^ bits % M < M := Nat.mod_lt _ hMpos
      have hfit : M * (shifted % 256) + R * 2 ^ bits % M < M * 2 ^ 8 := by
        have h1 : shifted % 256 < 256 := Nat.mod_lt _ (by norm_num)
        have h2 : M * (shifted % 256) + M ≤ M * 256 := by
          have h3 : M * (shifted % 256 + 1) ≤ M * 256 := Nat.mul_le_mul_left M (by omega)
          calc M * (shifted % 256) + M = M * (shifted % 256 + 1) := by ring
            _ ≤ M * 256 := h3
        have h256 : (2 : Nat) ^ 8 = 256 := by norm_num
        rw [h256]
        omega
      have hsplit2 : M * shifted + R * 2 ^ bits % M
          = (M * (shifted % 256) + R * 2 ^ bits % M) + (M * 2 ^ 8) * (shifted / 256) := by
        have h256 : (2 : Nat) ^ 8 = 256 := by norm_num
        rw [h256]
        calc M * shifted + R * 2 ^ bits % M
            = M * (256 * (shifted / 256) + shifted % 256) + R * 2 ^ bits % M := by
              rw [hdm8]
          _ = M * (shifted % 256) + R * 2 ^ bits % M + M * 256 * (shifted / 256) := by
              ring
      rw [hsplit2, Nat.add_mul_mod_self_left, Nat.mod_eq_of_lt hfit]
      ring
    rw [hcons]
    refine ⟨hcarry, ?_, ?_, hnewval⟩
    · simp only [List.length_cons, hlen]
    · intro x hx
      rcases List.mem_cons.mp hx with rfl | hx
      · rw [hmask]
        exact Nat.mod_lt _ (by norm_num)
      · exact hbnd x hx
theorem charsValueAux_none : ∀ cs : List Char, charsValueAux none cs = none := by
  intro cs
  induction cs with
  | nil => rfl
  | cons c cs ih =>
    show charsValueAux (Option.bind none _) cs = none
    exact ih

theorem charsValueAux_cons_none (a : Nat) (c : Char) (cs : List Char)
    (h : ULID.DECODE_TABLE c.toNat = none) :
    charsValueAux (some a) (c :: cs) = none := by
  show charsValueAux (Option.bind (some a) _) cs = none
  simp only [Option.bind_some, h, Option.map_none]
  exact charsValueAux_none cs

theorem charsValueAux_cons_some (a v : Nat) (c : Char) (cs : List Char)
    (h : ULID.DECODE_TABLE c.toNat = some v) :
    charsValueAux (some a) (c :: cs) = charsValueAux (some (a * 32 + v)) cs := by
  show charsValueAux (Option.bind (some a) _) cs = _
  simp [h]

theorem charsValueAux_lt : ∀ (cs : List Char) (a D : Nat),
    charsValueAux (some a) cs = some D → D < (a + 1) * 32 ^ cs.length := by
  intro cs
  induction cs with
  | nil =>
    intro a D h
    have ha : a = D := by
      have : some a = some D := h
      exact Option.some.inj this
    subst ha
    simp
  | cons c cs ih =>
    intro a D h
    cases htab : ULID.DECODE_TABLE c.toNat with
    | none =>
      rw [charsValueAux_cons_none a c cs htab] at h
      cases h
    | some v =>
      rw [charsValueAux_cons_some a v c cs htab] at h
      have hv : v < 32 := decode_table_bound _ _ htab
      have hD := ih (a * 32 + v) D h
      calc D < (a * 32 + v + 1) * 32 ^ cs.length := hD
        _ ≤ ((a + 1) * 32) * 32 ^ cs.length :=
            Nat.mul_le_mul_right _ (by omega)
        _ = (a + 1) * 32 ^ (c :: cs).length := by
            simp only [List.length_cons, pow_succ]
            ring

/-- Or-ing a 5-bit value into the last byte of a byte list whose value is
divisible by 32 adds it to the value. -/
theorem snoc_or_value (l : List Nat) (v : Nat) (hne : l ≠ []) (hbnd : ∀ b ∈ l, b < 256)
    (hlast : bytesToNat l % 32 = 0) (hv : v < 32) :
    (l.dropLast ++ [l.getLastD 0 ||| v]).length = l.length
    ∧ (∀ b ∈ l.dropLast ++ [l.getLastD 0 ||| v], b < 256)
    ∧ bytesToNat (l.dropLast ++ [l.getLastD 0 ||| v]) = bytesToNat l + v := by
  have hgl : l.getLastD 0 = l.getLast hne := by
    rw [List.getLastD_eq_getLast?, List.getLast?_eq_getLast l hne]
    rfl
  have hsplit : l.dropLast ++ [l.getLast hne] = l := List.dropLast_append_getLast hne
  have hglt : l.getLast hne < 256 := hbnd _ (List.getLast_mem hne)
  have hval : bytesToNat l = bytesToNat l.dropLast * 2 ^ 8 + l.getLast hne := by
    conv_lhs => rw [← hsplit]
    rw [show bytesToNat (l.dropLast ++ [l.getLast hne])
        = bytesToNat l.dropLast * 2 ^ (8 * 1) + bytesToNat [l.getLast hne]
        from radixToNat_append 8 _ _]
    rw [show bytesToNat [l.getLast hne] = l.getLast hne from radixToNat_singleton 8 _]
  have hgmod : l.getLast hne % 32 = 0 := by
    have h256 : (2 : Nat) ^ 8 = 256 := by norm_num
    rw [h256] at hval
    omega
  have hor : l.getLast hne ||| v = l.getLast hne + v := by
    apply lor_eq_add (n := 5)
    · rw [show (2 : Nat) ^ 5 = 32 by norm_num]
      exact hgmod
    · rw [show (2 : Nat) ^ 5 = 32 by norm_num]
      exact hv
  have hsum : l.getLast hne + v < 256 := by omega
  have hlen0 : l.dropLast.length = l.length - 1 := List.length_dropLast l
  have hlpos : 0 < l.length := List.length_pos_of_ne_nil hne
  refine ⟨?_, ?_, ?_⟩
  · rw [List.length_append, hlen0]
    simp only [List.length_cons, List.length_nil]
    omega
  · intro x hx
    rcases List.mem_append.mp hx with hx | hx
    · exact hbnd x (List.dropLast_subset l hx)
    · rcases List.mem_singleton.mp hx with rfl
      rw [hgl, hor]
      exact hsum
  · rw [hgl, hor]
    rw [show bytesToNat (l.dropLast ++ [l.getLast hne + v])
        = bytesToNat l.dropLast * 2 ^ (8 * 1) + bytesToNat [l.getLast hne + v]
        from radixToNat_append 8 _ _]
    rw [show bytesToNat [l.getLast hne + v] = l.getLast hne + v from radixToNat_singleton 8 _]
    rw [hval]
    ring_nf

theorem decodeLoop_spec : ∀ (cs : List Char) (acc : List Nat), acc.length = 17 →
    (∀ b ∈ acc, b < 256) → (bytesToNat acc + 1) * 32 ^ cs.length ≤ 2 ^ 136 →
    (charsValueAux (some (bytesToNat acc)) cs = none → ULID.decodeLoop cs acc = none)
    ∧ (∀ D, charsValueAux (some (bytesToNat acc)) cs = some D →
        ∃ acc', ULID.decodeLoop cs acc = some acc' ∧ acc'.length = 17
          ∧ (∀ b ∈ acc', b < 256) ∧ bytesToNat acc' = D) := by
  intro cs
  induction cs with
  | nil =>
    intro acc hlen hbnd hbound
    constructor
    · intro h
      cases h
    · intro D h
      have hD : bytesToNat acc = D := Option.some.inj h
      exact ⟨acc, rfl, hlen, hbnd, hD⟩
  | cons c cs ih =>
    intro acc hlen hbnd hbound
    cases htab : ULID.DECODE_TABLE c.toNat with
    | none =>
      have hloop : ULID.decodeLoop (c :: cs) acc = none := by
        show (match ULID.DECODE_TABLE c.toNat with
          | none => none
          | some value =>
            match ULID.shift_left acc 5 with
            | none => none
            | some acc' =>
              ULID.decodeLoop cs (acc'.dropLast ++ [acc'.getLastD 0 ||| value])) = none
        rw [htab]
      exact ⟨fun _ => hloop, fun D h => by
        rw [charsValueAux_cons_none _ c cs htab] at h
        cases h⟩
    | some v =>
      have hv : v < 32 := decode_table_bound _ _ htab
      have hshift : ULID.shift_left acc 5 = some (ULID.shiftLeftCarry 5 acc).2 := by
        unfold ULID.shift_left
        rw [if_pos (by norm_num)]
      obtain ⟨_, hSlen, hSbnd, hSval⟩ := shiftLeftCarry_spec 5 acc hbnd
      set S := (ULID.shiftLeftCarry 5 acc).2 with hSdef
      set A := bytesToNat acc with hA
      have hlen136 : (8 : Nat) * acc.length = 136 := by rw [hlen]
      have h32 : (2 : Nat) ^ 5 = 32 := by norm_num
      have hA32lt : A * 32 < 2 ^ 136 := by
        have h1 : (32 : Nat) ≤ 32 ^ (c :: cs).length := by
          rw [show (32 : Nat) = 32 ^ 1 by norm_num]
          exact Nat.pow_le_pow_right (by norm_num) (by simp only [List.length_cons]; omega)
        have h2 : (A + 1) * 32 ≤ (A + 1) * 32 ^ (c :: cs).length :=
          Nat.mul_le_mul_left _ h1
        have h3 : (A + 1) * 32 ≤ 2 ^ 136 := le_trans h2 hbound
        have h4 : (A + 1) * 32 = A * 32 + 32 := by ring
        omega
      have hSval' : bytesToNat S = A * 32 := by
        rw [hSval, hlen136, h32]
        exact Nat.mod_eq_of_lt hA32lt
      have hSmod : bytesToNat S % 32 = 0 := by
        rw [hSval']
        exact Nat.mul_mod_left A 32
      have hSne : S ≠ [] := by
        intro h
        rw [h] at hSlen
        rw [hlen] at hSlen
        cases hSlen
      obtain ⟨hlen₂, hbnd₂, hval₂⟩ := snoc_or_value S v hSne hSbnd hSmod hv
      have hlen₂' : (S.dropLast ++ [S.getLastD 0 ||| v]).length = 17 := by
        rw [hlen₂, hSlen, hlen]
      have hval₂' : bytesToNat (S.dropLast ++ [S.getLastD 0 ||| v]) = A * 32 + v := by
        rw [hval₂, hSval']
      have hbound₂ : (bytesToNat (S.dropLast ++ [S.getLastD 0 ||| v]) + 1) * 32 ^ cs.length
          ≤ 2 ^ 136 := by
        rw [hval₂']
        calc (A * 32 + v + 1) * 32 ^ cs.length
            ≤ ((A + 1) * 32) * 32 ^ cs.length := Nat.mul_le_mul_right _ (by omega)
          _ = (A + 1) * 32 ^ (c :: cs).length := by
              simp only [List.length_cons, pow_succ]
              ring
          _ ≤ 2 ^ 136 := hbound
      obtain ⟨ihnone, ihsome⟩ := ih (S.dropLast ++ [S.getLastD 0 ||| v]) hlen₂' hbnd₂ hbound₂
      have hloop : ULID.decodeLoop (c :: cs) acc
          = ULID.decodeLoop cs (S.dropLast ++ [S.getLastD 0 ||| v]) := by
        show (match ULID.DECODE_TABLE c.toNat with
          | none => none
          | some value =>
            match ULID.shift_left acc 5 with
            | none => none
            | some acc' =>
              ULID.decodeLoop cs (acc'.dropLast ++ [acc'.getLastD 0 ||| value])) = _
        rw [htab, hshift]
      have hchars : charsValueAux (some A) (c :: cs)
          = charsValueAux (some (bytesToNat (S.dropLast ++ [S.getLastD 0 ||| v]))) cs := by
        rw [charsValueAux_cons_some A v c cs htab, hval₂']
      constructor
      · intro h
        rw [hchars] at h
        rw [hloop]
        exact ihnone h
      · intro D h
        rw [hchars] at h
        rw [hloop]
        exact ihsome D h

theorem foldl_or_eq (l : List Nat) (hb : ∀ b ∈ l, b < 256) :
    ∀ a, l.foldl (fun t b => (t <<< 8) ||| b) a = l.foldl (fun t b => t * 2 ^ 8 + b) a := by
  induction l with
  | nil => intro a; rfl
  | cons b rest ih =>
    intro a
    show List.foldl _ ((a <<< 8) ||| b) rest = List.foldl _ (a * 2 ^ 8 + b) rest
    rw [shiftLeft_lor_eq_add a b 8 (by
      have := hb b (List.mem_cons_self b rest)
      norm_num
      omega)]
    exact ih (fun x hx => hb x (List.mem_cons_of_mem b hx)) _

/-- Full characterisation of `ULID.decode`: rejection on wrong length, on
unknown characters and on 130-bit overflow, and the exact components
returned on success. -/
theorem decode_spec (s : String) :
    (s.data.length ≠ 26 → ULID.decode s = none)
    ∧ (s.data.length = 26 →
        (charsValue s.data = none → ULID.decode s = none)
        ∧ (∀ A, charsValue s.data = some A →
            (2 ^ 128 ≤ A → ULID.decode s = none)
            ∧ (A < 2 ^ 128 → ∃ rb, ULID.decode s = some ⟨A / 2 ^ 80, rb⟩
                ∧ rb.length = 10 ∧ (∀ b ∈ rb, b < 256)
                ∧ bytesToNat rb = A % 2 ^ 80))) := by
  constructor
  · intro h
    unfold ULID.decode ULID.LENGTH
    rw [if_pos h]
  · intro hlen
    have hrep : (List.replicate 17 0 : List Nat).length = 17 := by simp
    have hrbnd : ∀ b ∈ List.replicate (17 : Nat) 0, b < 256 := by
      intro b hb
      rw [List.eq_of_mem_replicate hb]
      norm_num
    have hbase : bytesToNat (List.replicate 17 0) = 0 := rfl
    have hbound : (bytesToNat (List.replicate 17 0) + 1) * 32 ^ s.data.length ≤ 2 ^ 136 := by
      rw [hbase, hlen]
      norm_num
    obtain ⟨hnone, hsome⟩ := decodeLoop_spec s.data (List.replicate 17 0) hrep hrbnd hbound
    rw [hbase] at hnone hsome
    constructor
    · intro h
      unfold ULID.decode ULID.LENGTH
      rw [if_neg (by simp [hlen]), hnone h]
    · intro A hA
      obtain ⟨acc, hacc, haclen, hacbnd, hacval⟩ := hsome A hA
      obtain ⟨h0, tl, rfl⟩ : ∃ h0 tl, acc = h0 :: tl := by
        cases acc with
        | nil => cases haclen
        | cons a tl => exact ⟨a, tl, rfl⟩
      have htlen : tl.length = 16 := by simpa using haclen
      have htbnd : ∀ b ∈ tl, b < 256 := fun b hb => hacbnd b (List.mem_cons_of_mem _ hb)
      have hsplitval : A = h0 * 2 ^ 128 + bytesToNat tl := by
        rw [← hacval, show bytesToNat (h0 :: tl) = h0 * 2 ^ (8 * tl.length) + bytesToNat tl
          from radixToNat_cons 8 _ _, htlen]
      have htllt : bytesToNat tl < 2 ^ 128 := by
        have h1 := radixToNat_lt 8 tl htbnd
        rw [htlen] at h1
        exact h1
      constructor
      · intro hge
        have hh0ne : h0 ≠ 0 := by
          intro h
          rw [h] at hsplitval
          omega
        unfold ULID.decode ULID.LENGTH
        rw [if_neg (by simp [hlen]), hacc]
        show (if (h0 :: tl).headD 0 ≠ 0 then none else _) = none
        rw [if_pos (by simp [List.headD_cons, hh0ne])]
      · intro hlt
        have hh0 : h0 = 0 := by
          by_contra h
          have : 2 ^ 128 ≤ h0 * 2 ^ 128 := by
            calc (2 : Nat) ^ 128 = 1 * 2 ^ 128 := by ring
              _ ≤ h0 * 2 ^ 128 := Nat.mul_le_mul_right _ (by omega)
          omega
        subst hh0
        have hAval : A = bytesToNat tl := by omega
        refine ⟨tl.drop 6, ?_, ?_, ?_, ?_⟩
        · unfold ULID.decode ULID.LENGTH
          rw [if_neg (by simp [hlen]), hacc]
          show (if (0 :: tl).headD 0 ≠ 0 then none
            else some (DecodedULID.mk
              (((((0 :: tl).drop 1).take 16).take 6).foldl
                (fun t b => (t <<< 8) ||| b) 0)
              ((((0 :: tl).drop 1).take 16).drop 6 |>.take 10)))
            = some (DecodedULID.mk (A / 2 ^ 80) (tl.drop 6))
          rw [if_neg (by simp)]
          have hdrop1 : ((0 : Nat) :: tl).drop 1 = tl := rfl
          have htake16 : tl.take 16 = tl := by
            rw [← htlen, List.take_length]
          rw [hdrop1, htake16]
          obtain ⟨htakeval, hdropval⟩ := radixToNat_take_drop 8 tl 6 (by omega) htbnd
          rw [htlen] at htakeval hdropval
          have htake6bnd : ∀ b ∈ tl.take 6, b < 256 :=
            fun b hb => htbnd b (List.mem_of_mem_take hb)
          have hfold : (tl.take 6).foldl (fun t b => (t <<< 8) ||| b) 0
              = radixToNat 8 (tl.take 6) := by
            rw [foldl_or_eq _ htake6bnd 0]
            show List.foldl (fun a b => a * 2 ^ 8 + b) 0 (tl.take 6) = _
            rw [radix_foldl 8 (tl.take 6) 0]
            simp only [Nat.zero_mul, Nat.zero_add]
          have hdroplen : (tl.drop 6).length = 10 := by
            rw [List.length_drop, htlen]
          have htake10 : (tl.drop 6).take 10 = tl.drop 6 := by
            rw [← hdroplen, List.take_length]
          rw [htake10, hfold, htakeval, hAval]
          rfl
        · rw [List.length_drop, htlen]
        · exact fun b hb => htbnd b (List.mem_of_mem_drop hb)
        · obtain ⟨htakeval, hdropval⟩ := radixToNat_take_drop 8 tl 6 (by omega) htbnd
          rw [htlen] at hdropval
          rw [show bytesToNat (tl.drop 6) = radixToNat 8 (tl.drop 6) from rfl, hdropval, hAval]
          rfl

/-! ### Round-trip -/

theorem charsValueAux_map_alph : ∀ (ds : List Nat), (∀ d ∈ ds, d < 32) → ∀ a : Nat,
    charsValueAux (some a) (List.map alphChar ds)
      = some (List.foldl (fun x d => x * 32 + d) a ds) := by
  intro ds
  induction ds with
  | nil => intro _ a; rfl
  | cons d ds ih =>
    intro hds a
    have hd : d < 32 := hds d (List.mem_cons_self d ds)
    rw [List.map_cons,
      charsValueAux_cons_some a d (alphChar d) (List.map alphChar ds)
        (decode_table_alphChar d hd)]
    exact ih (fun x hx => hds x (List.mem_cons_of_mem d hx)) (a * 32 + d)

theorem charsValue_map_alph (ds : List Nat) (hds : ∀ d ∈ ds, d < 32) :
    charsValue (List.map alphChar ds) = some (radixToNat 5 ds) := by
  rw [show charsValue (List.map alphChar ds)
      = charsValueAux (some 0) (List.map alphChar ds) from rfl,
    charsValueAux_map_alph ds hds 0]
  congr 1

theorem lt_256_pow (b : Nat) (h : b < 256) : b < 2 ^ 8 :=
  lt_of_lt_of_le h (by norm_num)

/-- Round-trip through the codec: `decode (encode t r)` recovers the
timestamp modulo `2 ^ 48` together with the random bytes. -/
theorem encode_decode (t : Int) (r : List Nat) (hr : r.length = 10)
    (h256 : ∀ b ∈ r, b < 256) :
    ∃ u, ULID.encode t r = some u ∧ ULID.decode u = some ⟨(t % 2 ^ 48).toNat, r⟩ := by
  obtain ⟨ds, henc, hds26, hds32, hdsval⟩ := encode_chars t r hr h256
  refine ⟨⟨List.map alphChar ds⟩, henc, ?_⟩
  have hdata : (String.mk (List.map alphChar ds)).data = List.map alphChar ds := rfl
  have hulen : (String.mk (List.map alphChar ds)).data.length = 26 := by
    rw [hdata, List.length_map, hds26]
  have hcv : charsValue (String.mk (List.map alphChar ds)).data = some (radixToNat 5 ds) := by
    rw [hdata]
    exact charsValue_map_alph ds hds32
  have hT : (t % 2 ^ 48).toNat < 2 ^ 48 := by
    have h1 := Int.emod_nonneg t (show (2 : Int) ^ 48 ≠ 0 by norm_num)
    have h2 := Int.emod_lt_of_pos t (show (0 : Int) < 2 ^ 48 by norm_num)
    omega
  have hrv : bytesToNat r < 2 ^ 80 := by
    have h1 := radixToNat_lt 8 r (fun b hb => lt_256_pow b (h256 b hb))
    rw [hr] at h1
    exact h1
  have hAlt : radixToNat 5 ds < 2 ^ 128 := by
    rw [hdsval]
    have h1 : ((t % 2 ^ 48).toNat + 1) * 2 ^ 80 ≤ 2 ^ 48 * 2 ^ 80 :=
      Nat.mul_le_mul_right _ (by omega)
    have h2 : (2 : Nat) ^ 48 * 2 ^ 80 = 2 ^ 128 := by
      rw [← pow_add]
    have h3 : ((t % 2 ^ 48).toNat + 1) * 2 ^ 80
        = (t % 2 ^ 48).toNat * 2 ^ 80 + 2 ^ 80 := by ring
    omega
  obtain ⟨hover, hok⟩ := ((decode_spec ⟨List.map alphChar ds⟩).2 hulen).2
    (radixToNat 5 ds) hcv
  obtain ⟨rb, hdec, hrblen, hrbbnd, hrbval⟩ := hok hAlt
  have hdivmod : ∀ T R M : Nat, R < M → 0 < M → (T * M + R) / M = T ∧ (T * M + R) % M = R := by
    intro T R M hR hM
    constructor
    · rw [show T * M + R = R + M * T by ring, Nat.add_mul_div_left _ _ hM,
        Nat.div_eq_of_lt hR, Nat.zero_add]
    · rw [show T * M + R = R + T * M by ring, Nat.add_mul_mod_self_right,
        Nat.mod_eq_of_lt hR]
  have hdiv : radixToNat 5 ds / 2 ^ 80 = (t % 2 ^ 48).toNat := by
    rw [hdsval]
    exact (hdivmod _ _ _ hrv (Nat.two_pow_pos _)).1
  have hmod : radixToNat 5 ds % 2 ^ 80 = bytesToNat r := by
    rw [hdsval]
    exact (hdivmod _ _ _ hrv (Nat.two_pow_pos _)).2
  have hrbeq : rb = r := by
    refine radixToNat_inj 8 rb r (by rw [hrblen, hr])
      (fun b hb => lt_256_pow b (hrbbnd b hb))
      (fun b hb => lt_256_pow b (h256 b hb)) ?_
    rw [show radixToNat 8 rb = bytesToNat rb from rfl,
      show radixToNat 8 r = bytesToNat r from rfl, hrbval, hmod]
  rw [hdec, hdiv, hrbeq]

/-- Claim C1: for every timestamp in `[0, 2^48)` and every 10-byte random
component, `decode (encode t r)` succeeds and returns exactly `(t, r)`. -/
theorem C1_roundtrip (t : Nat) (r : List Nat) (ht : t < 2 ^ 48) (hr : r.length = 10)
    (h256 : ∀ b ∈ r, b < 256) :
    ∃ u, ULID.encode (t : Int) r = some u ∧ ULID.decode u = some ⟨t, r⟩ := by
  obtain ⟨u, he, hd⟩ := encode_decode (t : Int) r hr h256
  have hmodeq : ((t : Int) % 2 ^ 48).toNat = t := by
    rw [Int.emod_eq_of_lt (by positivity) (by exact_mod_cast ht)]
    simp
  rw [hmodeq] at hd
  exact ⟨u, he, hd⟩

/-- Claim C1 witness: the concrete example from the specification. -/
theorem C1_roundtrip_witness :
    ∃ u, ULID.encode ((1000000 : Nat) : Int) [0, 0, 0, 0, 0, 0, 0, 0, 0, 1] = some u
      ∧ ULID.decode u = some ⟨1000000, [0, 0, 0, 0, 0, 0, 0, 0, 0, 1]⟩ :=
  C1_roundtrip 1000000 [0, 0, 0, 0, 0, 0, 0, 0, 0, 1] (by norm_num) (by norm_num) (by decide)

/-- Claim C10: `encode` never validates the timestamp: for every integer
timestamp (negative or above `2 ^ 48` included) and 10-byte random component
it succeeds, silently truncating the timestamp to its low 48 bits, and
decoding returns `(timestamp mod 2 ^ 48, random)`. -/
theorem C10_timestamp_truncation (t : Int) (r : List Nat) (hr : r.length = 10)
    (h256 : ∀ b ∈ r, b < 256) :
    ∃ u, ULID.encode t r = some u ∧ ULID.decode u = some ⟨(t % 2 ^ 48).toNat, r⟩ :=
  encode_decode t r hr h256

/-- Claim C10 witness: a negative timestamp is truncated, not rejected. -/
theorem C10_timestamp_truncation_witness :
    ∃ u, ULID.encode (-1 : Int) (List.replicate 10 0) = some u
      ∧ ULID.decode u = some ⟨((-1 : Int) % 2 ^ 48).toNat, List.replicate 10 0⟩ :=
  C10_timestamp_truncation (-1) (List.replicate 10 0) (by norm_num) (by decide)

/-! ### Error behaviour of the codec -/

/-- Claim C7: with a `bytes` random component (all bytes below 256),
`encode` fails — raises `ValueError`, modelled as `none` — exactly when the
component is not 10 bytes; on success the string has exactly 26 characters,
all from the canonical alphabet. -/
theorem C7_encode_errors (t : Int) (r : List Nat) (h256 : ∀ b ∈ r, b < 256) :
    (ULID.encode t r = none ↔ r.length ≠ 10)
    ∧ ∀ u, ULID.encode t r = some u →
        u.length = 26 ∧ ∀ c ∈ u.data, c ∈ ULID.ALPHABET.data := by
  have hlen10 : r.length = 10 → ∃ u, ULID.encode t r = some u := by
    intro hl
    obtain ⟨ds, henc, _, _, _⟩ := encode_chars t r hl h256
    exact ⟨_, henc⟩
  constructor
  · constructor
    · intro hnone hlen
      obtain ⟨u, hu⟩ := hlen10 hlen
      rw [hu] at hnone
      cases hnone
    · intro hlen
      unfold ULID.encode
      rw [if_pos hlen]
  · intro u hu
    have hl : r.length = 10 := by
      by_contra hlen
      have : ULID.encode t r = none := by
        unfold ULID.encode
        rw [if_pos hlen]
      rw [this] at hu
      cases hu
    obtain ⟨ds, henc, hds26, hds32, _⟩ := encode_chars t r hl h256
    rw [henc] at hu
    have hueq : u = ⟨List.map alphChar ds⟩ := (Option.some.inj hu).symm
    subst hueq
    constructor
    · show (List.map alphChar ds).length = 26
      rw [List.length_map, hds26]
    · intro c hc
      show c ∈ ULID.ALPHABET.data
      obtain ⟨d, hd, rfl⟩ := List.mem_map.mp hc
      exact alphChar_mem d (hds32 d hd)

/-- Claim C7 witness at a concrete valid input. -/
theorem C7_encode_errors_witness :
    (ULID.encode 0 (List.replicate 10 0) = none ↔ (List.replicate (10 : Nat) (0 : Nat)).length ≠ 10)
    ∧ ∀ u, ULID.encode 0 (List.replicate 10 0) = some u →
        u.length = 26 ∧ ∀ c ∈ u.data, c ∈ ULID.ALPHABET.data :=
  C7_encode_errors 0 (List.replicate 10 0) (by decide)

theorem charsValueAux_none_iff : ∀ (cs : List Char) (a : Nat),
    charsValueAux (some a) cs = none ↔ ∃ c ∈ cs, ULID.DECODE_TABLE c.toNat = none := by
  intro cs
  induction cs with
  | nil =>
    intro a
    constructor
    · intro h
      cases h
    · intro ⟨c, hc, _⟩
      cases hc
  | cons c cs ih =>
    intro a
    cases htab : ULID.DECODE_TABLE c.toNat with
    | none =>
      refine iff_of_true (charsValueAux_cons_none a c cs htab) ⟨c, List.mem_cons_self c cs, htab⟩
    | some v =>
      rw [charsValueAux_cons_some a v c cs htab, ih (a * 32 + v)]
      constructor
      · intro ⟨x, hx, hxt⟩
        exact ⟨x, List.mem_cons_of_mem c hx, hxt⟩
      · intro ⟨x, hx, hxt⟩
        rcases List.mem_cons.mp hx with rfl | hx
        · rw [htab] at hxt
          cases hxt
        · exact ⟨x, hx, hxt⟩

/-- Claim C6: `decode` is total (the embedding is a total function and the
only caught path returns the sentinel), and it returns `none` exactly when
the length is not 26, some character is missing from the decode table, or
the accumulated 130-bit value overflows 128 bits; on every other input it
returns a timestamp below `2 ^ 48` and exactly 10 random bytes. -/
theorem C6_decode_total (s : String) :
    (ULID.decode s = none ↔
      s.data.length ≠ 26
      ∨ (∃ c ∈ s.data, ULID.DECODE_TABLE c.toNat = none)
      ∨ (∃ A, charsValue s.data = some A ∧ 2 ^ 128 ≤ A))
    ∧ ∀ d, ULID.decode s = some d →
        d.timestamp_ms < 2 ^ 48 ∧ d.random_bytes.length = 10 := by
  obtain ⟨hwrong, hright⟩ := decode_spec s
  by_cases hlen : s.data.length = 26
  · obtain ⟨hnonechar, hsome⟩ := hright hlen
    cases hcv : charsValue s.data with
    | none =>
      have hnone : ULID.decode s = none := hnonechar hcv
      constructor
      · refine iff_of_true hnone (Or.inr (Or.inl ?_))
        exact (charsValueAux_none_iff s.data 0).mp hcv
      · intro d hd
        rw [hnone] at hd
        cases hd
    | some A =>
      obtain ⟨hover, hok⟩ := hsome A hcv
      have hnooverchar : ¬ ∃ c ∈ s.data, ULID.DECODE_TABLE c.toNat = none := by
        intro hex
        have : charsValue s.data = none := (charsValueAux_none_iff s.data 0).mpr hex
        rw [hcv] at this
        cases this
      by_cases hA : 2 ^ 128 ≤ A
      · have hnone := hover hA
        constructor
        · exact iff_of_true hnone (Or.inr (Or.inr ⟨A, rfl, hA⟩))
        · intro d hd
          rw [hnone] at hd
          cases hd
      · obtain ⟨rb, hdec, hrblen, _, _⟩ := hok (by omega)
        constructor
        · refine iff_of_false (by rw [hdec]; intro h; cases h) ?_
          intro habs
          rcases habs with h | h | ⟨A', hA', hge⟩
          · exact h hlen
          · exact hnooverchar h
          · have : A = A' := Option.some.inj hA'
            omega
        · intro d hd
          rw [hdec] at hd
          have hde : d = ⟨A / 2 ^ 80, rb⟩ := (Option.some.inj hd).symm
          subst hde
          refine ⟨?_, hrblen⟩
          show A / 2 ^ 80 < 2 ^ 48
          rw [Nat.div_lt_iff_lt_mul (Nat.two_pow_pos _), ← pow_add]
          omega
  · have hnone := hwrong hlen
    constructor
    · exact iff_of_true hnone (Or.inl hlen)
    · intro d hd
      rw [hnone] at hd
      cases hd

/-! ### Lenient decoding of aliases -/

instance aliasOf.decRel : DecidableRel aliasOf := fun c c' => by
  unfold aliasOf
  infer_instance

theorem decode_table_toLower (c : Char) :
    ULID.DECODE_TABLE c.toLower.toNat = ULID.DECODE_TABLE c.toNat := by
  by_cases h : c.toNat ≥ 65 ∧ c.toNat ≤ 90
  · have h1 : c.toLower = Char.ofNat (c.toNat + 32) := by
      unfold Char.toLower
      rw [if_pos h]
    have h2 : (Char.ofNat (c.toNat + 32)).toNat = c.toNat + 32 := by
      have hv : (c.toNat + 32).isValidChar := by
        left
        omega
      rw [Char.ofNat, dif_pos hv]
      rfl
    rw [h1, h2]
    have hdec : ∀ n, n < 91 → 65 ≤ n →
        ULID.DECODE_TABLE (n + 32) = ULID.DECODE_TABLE n := by decide
    exact hdec c.toNat (by omega) (by omega)
  · have h1 : c.toLower = c := by
      unfold Char.toLower
      rw [if_neg h]
    rw [h1]

theorem aliasOf_table {c c' : Char} (h : aliasOf c c') :
    ULID.DECODE_TABLE c'.toNat = ULID.DECODE_TABLE c.toNat := by
  rcases h with rfl | rfl | ⟨rfl, hc⟩ | ⟨rfl, hc⟩
  · rfl
  · exact decode_table_toLower c
  · simp only [List.mem_cons, List.not_mem_nil, or_false] at hc
    rcases hc with rfl | rfl | rfl | rfl <;> decide
  · simp only [List.mem_cons, List.not_mem_nil, or_false] at hc
    rcases hc with rfl | rfl <;> decide

theorem decodeLoop_congr : ∀ {cs cs' : List Char},
    List.Forall₂ (fun c c' => ULID.DECODE_TABLE c'.toNat = ULID.DECODE_TABLE c.toNat) cs cs' →
    ∀ acc, ULID.decodeLoop cs' acc = ULID.decodeLoop cs acc := by
  intro cs cs' h
  induction h with
  | nil =>
    intro acc
    rfl
  | @cons c c' lcs lcs' hcc htail ih =>
    intro acc
    show (match ULID.DECODE_TABLE c'.toNat with
      | none => none
      | some value =>
        match ULID.shift_left acc 5 with
        | none => none
        | some acc' => ULID.decodeLoop lcs' (acc'.dropLast ++ [acc'.getLastD 0 ||| value]))
      = (match ULID.DECODE_TABLE c.toNat with
      | none => none
      | some value =>
        match ULID.shift_left acc 5 with
        | none => none
        | some acc' => ULID.decodeLoop lcs (acc'.dropLast ++ [acc'.getLastD 0 ||| value]))
    rw [hcc]
    cases ULID.DECODE_TABLE c.toNat with
    | none => rfl
    | some v =>
      cases ULID.shift_left acc 5 with
      | none => rfl
      | some acc' => exact ih _

/-- Claim C8: substituting lowercase equivalents, `i I l L` for `1`, or
`o O` for `0`, character by character, never changes the result of
`decode`. -/
theorem C8_lenient_aliases (s s' : String) (h : List.Forall₂ aliasOf s.data s'.data) :
    ULID.decode s' = ULID.decode s := by
  have hlen : s'.data.length = s.data.length := h.length_eq.symm
  have htab := h.imp (fun a b hab => aliasOf_table hab)
  unfold ULID.decode ULID.LENGTH
  rw [hlen, decodeLoop_congr htab (List.replicate 17 0)]

/-- Claim C8 witness on a full 26-character string: lowercase everything
and substitute `i` for `1` and `o` for `0`. -/
theorem C8_lenient_aliases_witness :
    ULID.decode "oi23456789abcdefghjkmnpqrs" = ULID.decode "0123456789ABCDEFGHJKMNPQRS" :=
  C8_lenient_aliases "0123456789ABCDEFGHJKMNPQRS" "oi23456789abcdefghjkmnpqrs" (by decide)

/-! ### The generator: increment, monotonic step, traces -/

theorem incrementCarry_none_iff : ∀ l : List Nat,
    ULIDGenerator.incrementCarry l = none ↔ ∀ b ∈ l, b = 255 := by
  intro l
  induction l with
  | nil =>
    refine iff_of_true rfl ?_
    intro b hb
    cases hb
  | cons b rest ih =>
    show (if b = 0xFF then (ULIDGenerator.incrementCarry rest).map (fun r => 0 :: r)
        else some (((b + 1) &&& 0xFF) :: rest)) = none ↔ _
    by_cases hb : b = 0xFF
    · rw [if_pos hb]
      constructor
      · intro h
        have hrest : ULIDGenerator.incrementCarry rest = none := by
          cases hic : ULIDGenerator.incrementCarry rest with
          | none => rfl
          | some r =>
            rw [hic] at h
            cases h
        intro x hx
        rcases List.mem_cons.mp hx with rfl | hx
        · exact hb
        · exact (ih.mp hrest) x hx
      · intro h
        rw [ih.mpr (fun x hx => h x (List.mem_cons_of_mem b hx))]
        rfl
    · rw [if_neg hb]
      refine iff_of_false (by intro h; cases h) ?_
      intro h
      exact hb (h b (List.mem_cons_self b rest))

theorem incrementCarry_some : ∀ l : List Nat, (∀ b ∈ l, b < 256) →
    ∀ l', ULIDGenerator.incrementCarry l = some l' →
    l'.length = l.length ∧ (∀ b ∈ l', b < 256) ∧ valLE l' = valLE l + 1 := by
  intro l
  induction l with
  | nil =>
    intro _ l' h
    cases h
  | cons b rest ih =>
    intro hb l' h
    have hstep : ULIDGenerator.incrementCarry (b :: rest)
        = (if b = 0xFF then (ULIDGenerator.incrementCarry rest).map (fun r => 0 :: r)
          else some (((b + 1) &&& 0xFF) :: rest)) := rfl
    by_cases hb255 : b = 0xFF
    · rw [hstep, if_pos hb255] at h
      cases hic : ULIDGenerator.incrementCarry rest with
      | none =>
        rw [hic] at h
        cases h
      | some r' =>
        rw [hic] at h
        have hl' : l' = 0 :: r' := (Option.some.inj h).symm
        subst hl'
        obtain ⟨hrlen, hrbnd, hrval⟩ :=
          ih (fun x hx => hb x (List.mem_cons_of_mem b hx)) r' hic
        refine ⟨by simp [hrlen], ?_, ?_⟩
        · intro x hx
          rcases List.mem_cons.mp hx with rfl | hx
          · norm_num
          · exact hrbnd x hx
        · show 0 + 256 * valLE r' = (b + 256 * valLE rest) + 1
          rw [hrval, hb255]
          norm_num
          ring
    · rw [hstep, if_neg hb255] at h
      have hl' : l' = ((b + 1) &&& 0xFF) :: rest := (Option.some.inj h).symm
      subst hl'
      have hblt : b < 255 := by
        have := hb b (List.mem_cons_self b rest)
        omega
      have hband : (b + 1) &&& 0xFF = b + 1 := by
        rw [show (0xFF : Nat) = 2 ^ 8 - 1 by norm_num, Nat.and_pow_two_sub_one_eq_mod]
        exact Nat.mod_eq_of_lt (by omega)
      rw [hband]
      refine ⟨rfl, ?_, ?_⟩
      · intro x hx
        rcases List.mem_cons.mp hx with rfl | hx
        · omega
        · exact hb x (List.mem_cons_of_mem b hx)
      · show (b + 1) + 256 * valLE rest = (b + 256 * valLE rest) + 1
        ring

theorem increment_random_spec (r fresh : List Nat) (hb : ∀ b ∈ r, b < 256)
    (hne : ¬ ∀ b ∈ r, b = 255) :
    (ULIDGenerator.increment_random r fresh).length = r.length
    ∧ (∀ b ∈ ULIDGenerator.increment_random r fresh, b < 256)
    ∧ bytesToNat (ULIDGenerator.increment_random r fresh) = bytesToNat r + 1 := by
  unfold ULIDGenerator.increment_random
  cases hic : ULIDGenerator.incrementCarry r.reverse with
  | none =>
    exfalso
    have hall := (incrementCarry_none_iff r.reverse).mp hic
    exact hne (fun b hbm => hall b (List.mem_reverse.mpr hbm))
  | some l' =>
    obtain ⟨hlen, hbnd, hval⟩ := incrementCarry_some r.reverse
      (fun b hbm => hb b (List.mem_reverse.mp hbm)) l' hic
    refine ⟨?_, ?_, ?_⟩
    · rw [List.length_reverse, hlen, List.length_reverse]
    · intro b hbm
      exact hbnd b (List.mem_reverse.mp hbm)
    · rw [bytesToNat_eq_valLE_reverse l'.reverse, List.reverse_reverse, hval,
        ← bytesToNat_eq_valLE_reverse r]

theorem increment_random_overflow (r fresh : List Nat) (hall : ∀ b ∈ r, b = 255) :
    ULIDGenerator.increment_random r fresh = fresh := by
  unfold ULIDGenerator.increment_random
  rw [(incrementCarry_none_iff r.reverse).mpr (fun b hbm => hall b (List.mem_reverse.mp hbm))]

theorem int_emod48_toNat (t : Nat) (ht : t < 2 ^ 48) : (((t : Nat) : Int) % 2 ^ 48).toNat = t := by
  rw [Int.emod_eq_of_lt (by positivity) (by exact_mod_cast ht)]
  simp

/-- Claim C4: on the same-millisecond or clock-regression path
(`now_ms ≤ last_timestamp_ms`), the timestamp is kept unchanged, the random
component becomes the previous one plus one as a big-endian 80-bit integer
unless it was all `0xFF`, in which case it is replaced by the fresh random
bytes; the returned identifier decodes to the unchanged timestamp and the
new random component. -/
theorem C4_clock_regression (s : GenState) (now : Nat) (fresh : List Nat)
    (hs : validState s) (hflen : fresh.length = 10) (hfbnd : ∀ b ∈ fresh, b < 256)
    (hnow : now ≤ s.last_timestamp_ms) :
    (ULIDGenerator.nextState s now fresh).last_timestamp_ms = s.last_timestamp_ms
    ∧ (s.last_random ≠ List.replicate 10 255 →
        bytesToNat (ULIDGenerator.nextState s now fresh).last_random
          = bytesToNat s.last_random + 1)
    ∧ (s.last_random = List.replicate 10 255 →
        (ULIDGenerator.nextState s now fresh).last_random = fresh)
    ∧ ∃ u, (ULIDGenerator.next s now fresh).2 = some u
        ∧ ULID.decode u = some ⟨s.last_timestamp_ms,
            (ULIDGenerator.nextState s now fresh).last_random⟩ := by
  obtain ⟨hts, hlen, hbnd⟩ := hs
  have hstep : ULIDGenerator.nextState s now fresh
      = ⟨s.last_timestamp_ms, ULIDGenerator.increment_random s.last_random fresh⟩ := by
    unfold ULIDGenerator.nextState
    rw [if_neg (by omega)]
  have hvalid : (ULIDGenerator.nextState s now fresh).last_random.length = 10
      ∧ ∀ b ∈ (ULIDGenerator.nextState s now fresh).last_random, b < 256 := by
    rw [hstep]
    by_cases hall : ∀ b ∈ s.last_random, b = 255
    · rw [increment_random_overflow _ _ hall]
      exact ⟨hflen, hfbnd⟩
    · obtain ⟨h1, h2, _⟩ := increment_random_spec s.last_random fresh hbnd hall
      exact ⟨by rw [h1, hlen], h2⟩
  refine ⟨by rw [hstep], ?_, ?_, ?_⟩
  · intro hne255
    rw [hstep]
    have hne : ¬ ∀ b ∈ s.last_random, b = 255 := by
      intro hall
      exact hne255 (List.eq_replicate_iff.mpr ⟨hlen, hall⟩)
    exact (increment_random_spec _ fresh hbnd hne).2.2
  · intro hall255
    rw [hstep]
    apply increment_random_overflow
    intro b hbm
    rw [hall255] at hbm
    exact List.eq_of_mem_replicate hbm
  · obtain ⟨hl10, hb256⟩ := hvalid
    obtain ⟨u, he, hd⟩ := encode_decode
      ((ULIDGenerator.nextState s now fresh).last_timestamp_ms : Int)
      (ULIDGenerator.nextState s now fresh).last_random hl10 hb256
    refine ⟨u, he, ?_⟩
    rw [hd]
    congr 1
    have htseq : (ULIDGenerator.nextState s now fresh).last_timestamp_ms
        = s.last_timestamp_ms := by rw [hstep]
    rw [int_emod48_toNat _ (by rw [htseq]; exact hts), htseq]

/-- Claim C4 witness at a concrete state and a strictly smaller clock. -/
theorem C4_clock_regression_witness :
    (ULIDGenerator.nextState ⟨5, List.replicate 10 0⟩ 3
        (List.replicate 10 7)).last_timestamp_ms = 5
    ∧ (List.replicate 10 0 ≠ List.replicate 10 255 →
        bytesToNat (ULIDGenerator.nextState ⟨5, List.replicate 10 0⟩ 3
          (List.replicate 10 7)).last_random = bytesToNat (List.replicate 10 0) + 1)
    ∧ (List.replicate 10 0 = List.replicate 10 255 →
        (ULIDGenerator.nextState ⟨5, List.replicate 10 0⟩ 3
          (List.replicate 10 7)).last_random = List.replicate 10 7)
    ∧ ∃ u, (ULIDGenerator.next ⟨5, List.replicate 10 0⟩ 3 (List.replicate 10 7)).2 = some u
        ∧ ULID.decode u = some ⟨5,
            (ULIDGenerator.nextState ⟨5, List.replicate 10 0⟩ 3
              (List.replicate 10 7)).last_random⟩ :=
  C4_clock_regression ⟨5, List.replicate 10 0⟩ 3 (List.replicate 10 7)
    (by refine ⟨by norm_num, by decide, by decide⟩) (by decide) (by decide) (by norm_num)

theorem bytesToNat_lt_2_80 (r : List Nat) (hlen : r.length = 10)
    (hb : ∀ b ∈ r, b < 256) : bytesToNat r < 2 ^ 80 := by
  have h := radixToNat_lt 8 r (fun b hbm => lt_256_pow b (hb b hbm))
  rw [hlen] at h
  exact h

/-- One `next` call strictly increases the 128-bit state value and keeps the
state well formed, provided the inputs are well formed and the random
component is not all `0xFF` when the same-millisecond path is taken. -/
theorem nextState_strict (s : GenState) (now : Nat) (fresh : List Nat)
    (hs : validState s) (hin : validInput (now, fresh))
    (hnof : now ≤ s.last_timestamp_ms → s.last_random ≠ List.replicate 10 255) :
    validState (ULIDGenerator.nextState s now fresh)
    ∧ value128 s < value128 (ULIDGenerator.nextState s now fresh) := by
  obtain ⟨hts, hlen, hbnd⟩ := hs
  obtain ⟨hnow48, hflen, hfbnd⟩ := hin
  by_cases h : s.last_timestamp_ms < now
  · have hstep : ULIDGenerator.nextState s now fresh = ⟨now, fresh⟩ := by
      unfold ULIDGenerator.nextState
      rw [if_pos h]
    rw [hstep]
    refine ⟨⟨hnow48, hflen, hfbnd⟩, ?_⟩
    show s.last_timestamp_ms * 2 ^ 80 + bytesToNat s.last_random
      < now * 2 ^ 80 + bytesToNat fresh
    exact digit_block_lt _ _ (bytesToNat_lt_2_80 _ hlen hbnd) h
  · have hnow' : now ≤ s.last_timestamp_ms := by omega
    have hne : ¬ ∀ b ∈ s.last_random, b = 255 := by
      intro hall
      exact hnof hnow' (List.eq_replicate_iff.mpr ⟨hlen, hall⟩)
    have hstep : ULIDGenerator.nextState s now fresh
        = ⟨s.last_timestamp_ms, ULIDGenerator.increment_random s.last_random fresh⟩ := by
      unfold ULIDGenerator.nextState
      rw [if_neg h]
    rw [hstep]
    obtain ⟨h1, h2, h3⟩ := increment_random_spec s.last_random fresh hbnd hne
    refine ⟨⟨hts, by rw [h1, hlen], h2⟩, ?_⟩
    show s.last_timestamp_ms * 2 ^ 80 + bytesToNat s.last_random
      < s.last_timestamp_ms * 2 ^ 80
        + bytesToNat (ULIDGenerator.increment_random s.last_random fresh)
    rw [h3]
    omega

/-- A strictly larger 128-bit state value gives a lexicographically strictly
larger encoded string. -/
theorem encode_lt_of_value_lt (s₁ s₂ : GenState) (h₁ : validState s₁) (h₂ : validState s₂)
    (hv : value128 s₁ < value128 s₂) :
    someLt (ULID.encode s₁.last_timestamp_ms s₁.last_random)
      (ULID.encode s₂.last_timestamp_ms s₂.last_random) := by
  obtain ⟨ht₁, hl₁, hb₁⟩ := h₁
  obtain ⟨ht₂, hl₂, hb₂⟩ := h₂
  obtain ⟨ds₁, he₁, hds₁, hbb₁, hv₁⟩ := encode_chars _ _ hl₁ hb₁
  obtain ⟨ds₂, he₂, hds₂, hbb₂, hv₂⟩ := encode_chars _ _ hl₂ hb₂
  rw [int_emod48_toNat _ ht₁] at hv₁
  rw [int_emod48_toNat _ ht₂] at hv₂
  refine ⟨_, _, he₁, he₂, ?_⟩
  rw [String.lt_iff_toList_lt]
  show List.map alphChar ds₁ < List.map alphChar ds₂
  rw [mapAlph_lt_iff ds₁ ds₂ (by rw [hds₁, hds₂]) hbb₁ hbb₂]
  rw [← radixToNat_lt_iff 5 ds₁ ds₂ (by rw [hds₁, hds₂])
    (fun d hd => lt_of_lt_of_le (hbb₁ d hd) (by norm_num))
    (fun d hd => lt_of_lt_of_le (hbb₂ d hd) (by norm_num))]
  rw [hv₁, hv₂]
  exact hv

theorem scanl_head (s : GenState) (l : List (Nat × List Nat)) :
    (List.scanl stepP s l).head? = some s := by
  cases l <;> rfl

/-- The chained invariant over a whole trace of `next` calls. -/
theorem trace_chain : ∀ (inputs : List (Nat × List Nat)) (s₀ : GenState),
    validState s₀ → (∀ p ∈ inputs, validInput p) →
    (∀ q ∈ (List.scanl stepP s₀ inputs).zip inputs,
      q.2.1 ≤ q.1.last_timestamp_ms → q.1.last_random ≠ List.replicate 10 255) →
    List.Chain' (fun a b => validState a ∧ validState b ∧ value128 a < value128 b)
      (List.scanl stepP s₀ inputs) := by
  intro inputs
  induction inputs with
  | nil =>
    intro s₀ _ _ _
    show List.Chain' _ [s₀]
    exact List.chain'_singleton s₀
  | cons p ps ih =>
    intro s₀ hs hin hnof
    have hscan : List.scanl stepP s₀ (p :: ps) = s₀ :: List.scanl stepP (stepP s₀ p) ps := by
      simp [List.scanl]
    have hzip : (List.scanl stepP s₀ (p :: ps)).zip (p :: ps)
        = (s₀, p) :: (List.scanl stepP (stepP s₀ p) ps).zip ps := by
      rw [hscan]
      rfl
    have hnof0 : p.1 ≤ s₀.last_timestamp_ms → s₀.last_random ≠ List.replicate 10 255 := by
      intro hle
      exact hnof (s₀, p) (by rw [hzip]; exact List.mem_cons_self _ _) hle
    obtain ⟨hvalid₁, hlt₁⟩ := nextState_strict s₀ p.1 p.2 hs
      (hin p (List.mem_cons_self p ps)) hnof0
    have hchain := ih (stepP s₀ p) hvalid₁
      (fun q hq => hin q (List.mem_cons_of_mem p hq))
      (fun q hq => hnof q (by rw [hzip]; exact List.mem_cons_of_mem _ hq))
    rw [hscan]
    rw [List.chain'_cons']
    refine ⟨?_, hchain⟩
    intro b hb
    rw [scanl_head (stepP s₀ p) ps] at hb
    have hbe : b = stepP s₀ p := (Option.some.inj hb).symm
    subst hbe
    exact ⟨hs, hvalid₁, hlt₁⟩

/-- Claim C2: over any sequence of `next` calls with arbitrary non-negative
(sub-`2^48`) time overrides and well-formed fresh randomness, as long as the
same-millisecond path never meets an all-`0xFF` random component, the
(timestamp, random) state strictly increases as a 128-bit integer at every
call, and the returned strings are strictly increasing lexicographically. -/
theorem C2_monotonic_trace (s₀ : GenState) (inputs : List (Nat × List Nat))
    (hs : validState s₀) (hin : ∀ p ∈ inputs, validInput p)
    (hnof : ∀ q ∈ (List.scanl stepP s₀ inputs).zip inputs,
      q.2.1 ≤ q.1.last_timestamp_ms → q.1.last_random ≠ List.replicate 10 255) :
    ((List.scanl stepP s₀ inputs).map value128).Chain' (· < ·)
    ∧ (((List.scanl stepP s₀ inputs).drop 1).map
        (fun s => ULID.encode s.last_timestamp_ms s.last_random)).Chain' someLt := by
  have hchain := trace_chain inputs s₀ hs hin hnof
  constructor
  · rw [List.chain'_map]
    exact hchain.imp (fun a b hab => hab.2.2)
  · rw [List.chain'_map]
    have htail : List.Chain'
        (fun a b => validState a ∧ validState b ∧ value128 a < value128 b)
        ((List.scanl stepP s₀ inputs).drop 1) := by
      have := hchain.tail
      simpa using this
    exact htail.imp (fun a b hab => encode_lt_of_value_lt _ _ hab.1 hab.2.1 hab.2.2)

/-- Claim C2 witness: two calls, the second with a decreasing clock. -/
theorem C2_monotonic_trace_witness :
    ((List.scanl stepP GenState.init
        [(1000, List.replicate 10 0), (999, List.replicate 10 7)]).map value128).Chain' (· < ·)
    ∧ (((List.scanl stepP GenState.init
        [(1000, List.replicate 10 0), (999, List.replicate 10 7)]).drop 1).map
        (fun s => ULID.encode s.last_timestamp_ms s.last_random)).Chain' someLt :=
  C2_monotonic_trace GenState.init [(1000, List.replicate 10 0), (999, List.replicate 10 7)]
    (by refine ⟨by decide, by decide, by decide⟩)
    (by
      intro p hp
      rcases List.mem_cons.mp hp with rfl | hp
      · exact ⟨by decide, by decide, by decide⟩
      · rcases List.mem_cons.mp hp with rfl | hp
        · exact ⟨by decide, by decide, by decide⟩
        · cases hp)
    (by decide)

/-- Claim C3: on valid inputs, `encode` is a strict order embedding from
128-bit values to strings under lexicographic comparison. -/
theorem C3_encode_order_embedding (t₁ t₂ : Nat) (r₁ r₂ : List Nat) (u₁ u₂ : String)
    (ht₁ : t₁ < 2 ^ 48) (ht₂ : t₂ < 2 ^ 48)
    (hr₁ : r₁.length = 10) (hr₂ : r₂.length = 10)
    (hb₁ : ∀ b ∈ r₁, b < 256) (hb₂ : ∀ b ∈ r₂, b < 256)
    (he₁ : ULID.encode (t₁ : Int) r₁ = some u₁)
    (he₂ : ULID.encode (t₂ : Int) r₂ = some u₂) :
    (u₁ < u₂ ↔ t₁ * 2 ^ 80 + bytesToNat r₁ < t₂ * 2 ^ 80 + bytesToNat r₂) := by
  obtain ⟨ds₁, he₁', hds₁, hbb₁, hv₁⟩ := encode_chars _ _ hr₁ hb₁
  obtain ⟨ds₂, he₂', hds₂, hbb₂, hv₂⟩ := encode_chars _ _ hr₂ hb₂
  rw [int_emod48_toNat _ ht₁] at hv₁
  rw [int_emod48_toNat _ ht₂] at hv₂
  rw [he₁'] at he₁
  rw [he₂'] at he₂
  have hu₁ : u₁ = ⟨List.map alphChar ds₁⟩ := (Option.some.inj he₁).symm
  have hu₂ : u₂ = ⟨List.map alphChar ds₂⟩ := (Option.some.inj he₂).symm
  subst hu₁
  subst hu₂
  rw [String.lt_iff_toList_lt]
  show List.map alphChar ds₁ < List.map alphChar ds₂ ↔ _
  rw [mapAlph_lt_iff ds₁ ds₂ (by rw [hds₁, hds₂]) hbb₁ hbb₂,
    ← radixToNat_lt_iff 5 ds₁ ds₂ (by rw [hds₁, hds₂])
      (fun d hd => lt_of_lt_of_le (hbb₁ d hd) (by norm_num))
      (fun d hd => lt_of_lt_of_le (hbb₂ d hd) (by norm_num)),
    hv₁, hv₂]

/-- Claim C3 witness at concrete encodings. -/
theorem C3_encode_order_embedding_witness :
    (("00000000000000000000000000" : String) < "00000000000000000000000001"
      ↔ 0 * 2 ^ 80 + bytesToNat (List.replicate 10 0)
        < 0 * 2 ^ 80 + bytesToNat [0, 0, 0, 0, 0, 0, 0, 0, 0, 1]) :=
  C3_encode_order_embedding 0 0 (List.replicate 10 0) [0, 0, 0, 0, 0, 0, 0, 0, 0, 1]
    "00000000000000000000000000" "00000000000000000000000001"
    (by decide) (by decide) (by decide) (by decide) (by decide) (by decide) rfl rfl

/-- Components of any successful decode are well formed. -/
theorem decode_valid (x : String) (d : DecodedULID) (hd : ULID.decode x = some d) :
    d.timestamp_ms < 2 ^ 48 ∧ d.random_bytes.length = 10
      ∧ ∀ b ∈ d.random_bytes, b < 256 := by
  obtain ⟨hwrong, hright⟩ := decode_spec x
  by_cases hlen : x.data.length = 26
  · obtain ⟨hnonechar, hsome⟩ := hright hlen
    cases hcv : charsValue x.data with
    | none =>
      rw [hnonechar hcv] at hd
      cases hd
    | some A =>
      obtain ⟨hover, hok⟩ := hsome A hcv
      by_cases hA : 2 ^ 128 ≤ A
      · rw [hover hA] at hd
        cases hd
      · obtain ⟨rb, hdec, h10, h256, _⟩ := hok (by omega)
        rw [hdec] at hd
        have hde : d = ⟨A / 2 ^ 80, rb⟩ := (Option.some.inj hd).symm
        subst hde
        refine ⟨?_, h10, h256⟩
        show A / 2 ^ 80 < 2 ^ 48
        rw [Nat.div_lt_iff_lt_mul (Nat.two_pow_pos _), ← pow_add]
        omega
  · rw [hwrong hlen] at hd
    cases hd

/-- Claim C5: `seed` is a no-op on undecodable input; on decodable input it
replaces the state with the decoded pair exactly when that pair is strictly
greater as a 128-bit value, and leaves the state unchanged otherwise. -/
theorem C5_seed_conditional (s : GenState) (x : String) (hs : validState s) :
    (ULID.decode x = none → ULIDGenerator.seed s x = s)
    ∧ ∀ d, ULID.decode x = some d →
        (value128 s < value128 ⟨d.timestamp_ms, d.random_bytes⟩ →
          ULIDGenerator.seed s x = ⟨d.timestamp_ms, d.random_bytes⟩)
        ∧ (value128 ⟨d.timestamp_ms, d.random_bytes⟩ ≤ value128 s →
          ULIDGenerator.seed s x = s) := by
  obtain ⟨hts, hlen, hbnd⟩ := hs
  constructor
  · intro h
    unfold ULIDGenerator.seed
    rw [h]
  · intro d hd
    obtain ⟨hdt, hdlen, hdbnd⟩ := decode_valid x d hd
    have hseed : ULIDGenerator.seed s x
        = (if s.last_timestamp_ms < d.timestamp_ms then
            (⟨d.timestamp_ms, d.random_bytes⟩ : GenState)
          else if d.timestamp_ms = s.last_timestamp_ms
              ∧ s.last_random < d.random_bytes then
            (⟨d.timestamp_ms, d.random_bytes⟩ : GenState)
          else s) := by
      unfold ULIDGenerator.seed
      rw [hd]
    have hrs := bytesToNat_lt_2_80 s.last_random hlen hbnd
    have hrd := bytesToNat_lt_2_80 d.random_bytes hdlen hdbnd
    have hlex : s.last_random < d.random_bytes
        ↔ bytesToNat s.last_random < bytesToNat d.random_bytes :=
      (radixToNat_lt_iff 8 _ _ (by rw [hlen, hdlen])
        (fun b hb => lt_256_pow b (hbnd b hb))
        (fun b hb => lt_256_pow b (hdbnd b hb))).symm
    have hval : value128 s < value128 ⟨d.timestamp_ms, d.random_bytes⟩ ↔
        (s.last_timestamp_ms < d.timestamp_ms
          ∨ (d.timestamp_ms = s.last_timestamp_ms
            ∧ bytesToNat s.last_random < bytesToNat d.random_bytes)) := by
      show s.last_timestamp_ms * 2 ^ 80 + bytesToNat s.last_random
          < d.timestamp_ms * 2 ^ 80 + bytesToNat d.random_bytes ↔ _
      constructor
      · intro h
        rcases Nat.lt_trichotomy s.last_timestamp_ms d.timestamp_ms with ht | ht | ht
        · exact Or.inl ht
        · right
          rw [ht] at h
          exact ⟨ht.symm, by omega⟩
        · exact absurd h (Nat.lt_asymm (digit_block_lt _ _ hrd ht))
      · intro h
        rcases h with ht | ⟨hteq, hrv⟩
        · exact digit_block_lt _ _ hrs ht
        · rw [hteq]
          omega
    constructor
    · intro hv
      rcases hval.mp hv with ht | ⟨hteq, hrv⟩
      · rw [hseed, if_pos ht]
      · rw [hseed, if_neg (by omega), if_pos ⟨hteq, hlex.mpr hrv⟩]
    · intro hv
      have hnv : ¬ value128 s < value128 ⟨d.timestamp_ms, d.random_bytes⟩ := by omega
      have h1 : ¬ s.last_timestamp_ms < d.timestamp_ms :=
        fun h => hnv (hval.mpr (Or.inl h))
      have h2 : ¬ (d.timestamp_ms = s.last_timestamp_ms ∧ s.last_random < d.random_bytes) :=
        fun ⟨he, hr⟩ => hnv (hval.mpr (Or.inr ⟨he, hlex.mp hr⟩))
      rw [hseed, if_neg h1, if_neg h2]

/-- Claim C5 witness: seeding the fresh generator with garbage is a no-op,
and seeding with a decodable ULID follows the comparison rule. -/
theorem C5_seed_conditional_witness :
    (ULID.decode "!" = none → ULIDGenerator.seed GenState.init "!" = GenState.init)
    ∧ ∀ d, ULID.decode "!" = some d →
        (value128 GenState.init < value128 ⟨d.timestamp_ms, d.random_bytes⟩ →
          ULIDGenerator.seed GenState.init "!" = ⟨d.timestamp_ms, d.random_bytes⟩)
        ∧ (value128 ⟨d.timestamp_ms, d.random_bytes⟩ ≤ value128 GenState.init →
          ULIDGenerator.seed GenState.init "!" = GenState.init) :=
  C5_seed_conditional GenState.init "!" ⟨by decide, by decide, by decide⟩

/-! ### The two module-level singletons -/

/-- Claim C9 counterexample: starting from a fresh module state, one call to
`generate_ulid` leaves `ULIDGenerator._shared` untouched (`None`), so the
module-level convenience function does not operate on the `get_shared`
generator object; and a subsequent `get_shared().next()` call can return an
identifier that sorts strictly before the one `generate_ulid` returned, so
the two access paths do not form a single monotonic sequence. -/
theorem C9_counterexample :
    (generate_ulid ⟨none, none⟩ 1000 (List.replicate 10 0)).2.shared = none
    ∧ someLt
        (shared_next (generate_ulid ⟨none, none⟩ 1000 (List.replicate 10 0)).2 1
          (List.replicate 10 0)).1
        (generate_ulid ⟨none, none⟩ 1000 (List.replicate 10 0)).1 := by
  refine ⟨rfl, "00000000010000000000000000", "00000000Z80000000000000000", rfl, rfl, ?_⟩
  rw [String.lt_iff_toList_lt]
  show List.Lex (· < ·) "00000000010000000000000000".data "00000000Z80000000000000000".data
  repeat
    first
    | exact List.Lex.rel (by decide)
    | apply List.Lex.cons

/-- Claim C9 amended: `generate_ulid`/`get_ulid_generator` share one
module-level generator cell and `ULIDGenerator.get_shared` a separate
class-level cell; each is created lazily exactly once and repeated access
returns the same instance, but the two access paths operate on different
generator objects. -/
theorem C9_two_lazy_singletons (m : ModuleState) (now : Nat) (fresh : List Nat) :
    (get_ulid_generator (get_ulid_generator m).2).1 = (get_ulid_generator m).1
    ∧ (get_ulid_generator (get_ulid_generator m).2).2 = (get_ulid_generator m).2
    ∧ (get_shared (get_shared m).2).1 = (get_shared m).1
    ∧ (get_shared (get_shared m).2).2 = (get_shared m).2
    ∧ (generate_ulid m now fresh).2.shared = m.shared
    ∧ (generate_ulid m now fresh).1 = (ULIDGenerator.next (get_ulid_generator m).1 now fresh).2
    ∧ (generate_ulid m now fresh).2.generator_instance
        = some (ULIDGenerator.next (get_ulid_generator m).1 now fresh).1
    ∧ (shared_next m now fresh).2.generator_instance = m.generator_instance := by
  cases m with
  | mk sh gi =>
    cases sh <;> cases gi <;>
      exact ⟨rfl, rfl, rfl, rfl, rfl, rfl, rfl, rfl⟩

end Polykit
